import Mathlib

/-!
Verification development for the core of a 2D vector-graphics rasterization
front-end: the edge builder (`SkEdgeBuilder.cpp`) and the image-filter
evaluator with its LRU result cache (`SkImageFilter.cpp`).

Scalar (float) coordinates are modelled as rationals; `size_t` byte counts
are modelled as `Nat` (the byte-accounting invariant proved below keeps every
subtraction exact, so truncated subtraction agrees with the machine
arithmetic on all states reachable by the cache's operations); 32-bit
fixed-point values are modelled as `Int`.

External collaborators whose sources are not part of the two translation
units (the path iterator, `SkEdge::setLine`, the curve choppers, the line
clipper, the edge clipper) are modelled from the specification; each such
definition carries a doc comment starting with `Modelled from the spec:`.
-/

/-! ## Basic geometry -/

/-- An axis-aligned integer rectangle (`SkIRect`): `fLeft, fTop, fRight, fBottom`. -/
@[ext]
structure IRectI where
  left : Int
  top : Int
  right : Int
  bottom : Int
deriving DecidableEq

/-- Width of an `SkIRect`. -/
def IRectI.width (r : IRectI) : Int := r.right - r.left

/-- Height of an `SkIRect`. -/
def IRectI.height (r : IRectI) : Int := r.bottom - r.top

/-- An integer point (`SkIPoint`). -/
structure IPt where
  x : Int
  y : Int
deriving DecidableEq

/-- A scalar point (`SkPoint`), coordinates modelled as rationals. -/
structure PtQ where
  x : ℚ
  y : ℚ
deriving DecidableEq

/-- A scalar rectangle (`SkRect`). -/
structure RectQ where
  left : ℚ
  top : ℚ
  right : ℚ
  bottom : ℚ
deriving DecidableEq

/-- A 2D affine transform (`SkMatrix` restricted to its affine part, as the
specification fixes the CTM to be a 2D affine matrix). -/
structure MatrixQ where
  scaleX : ℚ
  skewX : ℚ
  transX : ℚ
  skewY : ℚ
  scaleY : ℚ
  transY : ℚ
deriving DecidableEq

/-- Image of a point under an affine `SkMatrix`. -/
def MatrixQ.mapPt (m : MatrixQ) (p : PtQ) : PtQ :=
  ⟨m.scaleX * p.x + m.skewX * p.y + m.transX,
   m.skewY * p.x + m.scaleY * p.y + m.transY⟩

/-- `SkMatrix::mapRect` for an affine matrix: the bounding box of the images
of the four corners. -/
def MatrixQ.mapRect (m : MatrixQ) (r : RectQ) : RectQ :=
  let p0 := m.mapPt ⟨r.left, r.top⟩
  let p1 := m.mapPt ⟨r.right, r.top⟩
  let p2 := m.mapPt ⟨r.right, r.bottom⟩
  let p3 := m.mapPt ⟨r.left, r.bottom⟩
  ⟨min (min p0.x p1.x) (min p2.x p3.x),
   min (min p0.y p1.y) (min p2.y p3.y),
   max (max p0.x p1.x) (max p2.x p3.x),
   max (max p0.y p1.y) (max p2.y p3.y)⟩

/-- `SkRect::roundOut`: round the rectangle outward to integer coordinates. -/
def RectQ.roundOut (r : RectQ) : IRectI :=
  ⟨⌊r.left⌋, ⌊r.top⌋, ⌈r.right⌉, ⌈r.bottom⌉⟩

/-! ## CropRect (`SkImageFilter::CropRect`, SkImageFilter.cpp lines 70-93) -/

/-- `SkImageFilter::CropRect`: a scalar rectangle plus the four-bit edge mask.
Bit 0 is `kHasLeft_CropEdge` (0x01), bit 1 `kHasTop_CropEdge` (0x02),
bit 2 `kHasWidth_CropEdge` (0x04), bit 3 `kHasHeight_CropEdge` (0x08). -/
structure CropRect where
  rect : RectQ
  flags : Nat
deriving DecidableEq

/-- `SkImageFilter::CropRect::applyTo` (SkImageFilter.cpp lines 70-93):
start from `imageBounds`; if any flag is set, transform the crop rect by the
CTM, round it out, and override the flagged sides in the order left, top,
width, height (left/top first, since width/height read the possibly
overridden left/top). -/
def CropRect.applyTo (cr : CropRect) (imageBounds : IRectI) (ctm : MatrixQ) : IRectI :=
  if cr.flags ≠ 0 then
    let devICropR := (ctm.mapRect cr.rect).roundOut
    let c1 := if cr.flags &&& 1 ≠ 0 then { imageBounds with left := devICropR.left } else imageBounds
    let c2 := if cr.flags &&& 2 ≠ 0 then { c1 with top := devICropR.top } else c1
    let c3 := if cr.flags &&& 4 ≠ 0 then { c2 with right := c2.left + devICropR.width } else c2
    if cr.flags &&& 8 ≠ 0 then { c3 with bottom := c3.top + devICropR.height } else c3
  else imageBounds

/-! ## Filter cache (`CacheImpl`, SkImageFilter.cpp lines 660-791) -/

/-- An `SkSpecialImage` as the cache sees it: a stable generation id, the
live subset, and the byte size reported by `getSize()`. -/
structure ImageV where
  uniqueId : Nat
  subset : IRectI
  size : Nat
deriving DecidableEq

/-- `SkImageFilter::Cache::Key`: the memoization fingerprint
`(nodeUniqueId, ctm, clipBounds, srcGenID, srcSubset)`. -/
structure CacheKey where
  uniqueId : Nat
  ctm : MatrixQ
  clipBounds : IRectI
  srcGenID : Nat
  srcSubset : IRectI
deriving DecidableEq

/-- `CacheImpl::Value`: a cache entry `(key, image, offset)`. -/
structure CacheValue where
  key : CacheKey
  image : ImageV
  offset : IPt
deriving DecidableEq

/-- The state of a `CacheImpl`: the intrusive LRU list (most recently used
first; the hash table `fLookup` indexes the same entries and is represented
by searching the list), `fCurrentBytes`, and `fMaxBytes`. -/
structure CacheImplState where
  entries : List CacheValue
  currentBytes : Nat
  maxBytes : Nat
deriving DecidableEq

/-- Total declared size of a list of entries. -/
def sumSizes (l : List CacheValue) : Nat := (l.map (fun v => v.image.size)).sum

/-- `fLookup.find(key)`: the entry with the given key, if present. -/
def lruFind (l : List CacheValue) (k : CacheKey) : Option CacheValue :=
  l.find? (fun v => decide (v.key = k))

/-- Remove the entry with the given key from the LRU list (the list-side
effect of `removeInternal` on the unique entry holding `k`). -/
def lruRemove (l : List CacheValue) (k : CacheKey) : List CacheValue :=
  l.eraseP (fun v => decide (v.key = k))

/-- `CacheImpl::get` (SkImageFilter.cpp lines 705-716): on a hit, return the
stored image and offset and move the entry to the head of the LRU list; on a
miss return nothing and leave the state unchanged. -/
def CacheImpl.get (s : CacheImplState) (k : CacheKey) :
    Option (ImageV × IPt) × CacheImplState :=
  match lruFind s.entries k with
  | some v =>
      (some (v.image, v.offset),
       { s with entries := v :: lruRemove s.entries k })
  | none => (none, s)

/-- The eviction loop of `CacheImpl::set` (SkImageFilter.cpp lines 746-753),
expressed on the reversed LRU list (head of the argument = least recently
used tail): while the budget is exceeded, stop if the tail is the entry just
inserted (identified by its key, which is unique in the list), otherwise
remove the tail, deduct its bytes, and log it as evicted. -/
def evictTail (maxB : Nat) (vk : CacheKey) :
    List CacheValue → Nat → List CacheValue → List CacheValue × Nat × List CacheValue
  | [], cur, ev => ([], cur, ev)
  | t :: rest, cur, ev =>
      if maxB < cur then
        if t.key = vk then (t :: rest, cur, ev)
        else evictTail maxB vk rest (cur - t.image.size) (ev ++ [t])
      else (t :: rest, cur, ev)

/-- `removeInternal` applied to the entry holding `k` when one is present
and a no-op otherwise: the `if (Value* v = fLookup.find(key))
this->removeInternal(v);` step shared by `set` and `purgeByKeys`
(SkImageFilter.cpp lines 720-722, 739-741, 767-770, 775-784). -/
def CacheImpl.removeKey (s : CacheImplState) (k : CacheKey) : CacheImplState :=
  match lruFind s.entries k with
  | some v0 => { s with entries := lruRemove s.entries k,
                        currentBytes := s.currentBytes - v0.image.size }
  | none => s

/-- `CacheImpl::set` (SkImageFilter.cpp lines 737-754): if the key is
already present, remove the old entry (deducting its bytes) first; then add
the new entry at the head of the LRU list, add its bytes, and evict from the
least-recently-used end until `currentBytes ≤ maxBytes`, never evicting the
entry just inserted. Also returns the list of entries evicted by capacity. -/
def CacheImpl.set (s : CacheImplState) (k : CacheKey) (img : ImageV) (off : IPt) :
    CacheImplState × List CacheValue :=
  let s1 := CacheImpl.removeKey s k
  let r := evictTail s.maxBytes k ((⟨k, img, off⟩ : CacheValue) :: s1.entries).reverse
             (s1.currentBytes + img.size) []
  (⟨r.1.reverse, r.2.1, s.maxBytes⟩, r.2.2)

/-- The loop of `CacheImpl::purge` (SkImageFilter.cpp lines 756-763) on the
reversed LRU list: while `currentBytes > 0`, remove the least-recently-used
entry and deduct its bytes.  (On the empty list with a positive count the
source would assert-fail; the model leaves such unreachable states alone.) -/
def purgeTail : List CacheValue → Nat → List CacheValue × Nat
  | [], cur => ([], cur)
  | t :: rest, cur =>
      if 0 < cur then purgeTail rest (cur - t.image.size)
      else (t :: rest, cur)

/-- `CacheImpl::purge` (SkImageFilter.cpp lines 756-763). -/
def CacheImpl.purge (s : CacheImplState) : CacheImplState :=
  let r := purgeTail s.entries.reverse s.currentBytes
  ⟨r.1.reverse, r.2, s.maxBytes⟩

/-- `CacheImpl::purgeByKeys` (SkImageFilter.cpp lines 765-772). -/
def CacheImpl.purgeByKeys (s : CacheImplState) (ks : List CacheKey) : CacheImplState :=
  ks.foldl CacheImpl.removeKey s

/-- Well-formedness of a cache state, maintained by every operation:
`fCurrentBytes` equals the sum of the live entries' declared sizes, and keys
are unique (the hash table holds at most one entry per key). -/
def CacheWF (s : CacheImplState) : Prop :=
  s.currentBytes = sumSizes s.entries ∧ s.entries.Pairwise (fun a b => a.key ≠ b.key)

/-! ## Filter evaluation (`SkImageFilter::filterImage`, SkImageFilter.cpp lines 217-239) -/

/-- A filter node as `filterImage` sees it: the stable nonzero `fUniqueID`,
the `fUsesSrcInput` flag, and the virtual `onFilterImage` computation. -/
structure FilterNode where
  uniqueId : Nat
  usesSrcInput : Bool
  onFilterImage : ImageV → MatrixQ → IRectI → Option (ImageV × IPt)

/-- The evaluation context `(ctm, clipBounds)`; the cache handle is passed
separately. -/
structure FilterCtx where
  ctm : MatrixQ
  clipBounds : IRectI
deriving DecidableEq

/-- The fingerprint computed at the top of `filterImage`
(SkImageFilter.cpp lines 221-223). -/
def mkCacheKey (n : FilterNode) (src : ImageV) (ctx : FilterCtx) : CacheKey :=
  ⟨n.uniqueId, ctx.ctm, ctx.clipBounds,
   if n.usesSrcInput then src.uniqueId else 0,
   if n.usesSrcInput then src.subset else ⟨0, 0, 0, 0⟩⟩

/-- Result of one `filterImage` call: the returned image and offset, the
cache state afterwards, the node's `fCacheKeys` list afterwards, the number
of times `onFilterImage` was invoked during the call, and the entries the
insertion evicted by capacity. -/
structure FilterResultM where
  result : Option (ImageV × IPt)
  cache : Option CacheImplState
  recorded : List CacheKey
  computeCalls : Nat
  evicted : List CacheValue

/-- `SkImageFilter::filterImage` (SkImageFilter.cpp lines 217-239): compute
the fingerprint; if a cache is present, probe it and return a hit directly;
otherwise invoke `onFilterImage` and, on a non-null result with a cache
present, store the result and record the key in the node's own key list. -/
def SkImageFilter.filterImage (n : FilterNode) (src : ImageV) (ctx : FilterCtx)
    (cache : Option CacheImplState) (recorded : List CacheKey) : FilterResultM :=
  let key := mkCacheKey n src ctx
  match cache with
  | some c =>
      match CacheImpl.get c key with
      | (some io, c') => ⟨some io, some c', recorded, 0, []⟩
      | (none, c') =>
          match n.onFilterImage src ctx.ctm ctx.clipBounds with
          | some (img, off) =>
              let r := CacheImpl.set c' key img off
              ⟨some (img, off), some r.1, recorded ++ [key], 1, r.2⟩
          | none => ⟨none, some c', recorded, 1, []⟩
  | none =>
      ⟨n.onFilterImage src ctx.ctm ctx.clipBounds, none, recorded, 1, []⟩

/-! ## Execution traces for the node key-bookkeeping invariant -/

/-- A node together with its `fCacheKeys` bookkeeping list. -/
structure WNode where
  node : FilterNode
  recorded : List CacheKey

/-- A world: the shared cache, the live nodes, and a log of all entries the
cache has evicted by capacity so far. -/
structure World where
  cache : Option CacheImplState
  nodes : List WNode
  evictedLog : List CacheValue

/-- One evaluation request: which node is asked to filter which source image
under which context. -/
structure WEvent where
  nodeIdx : Nat
  src : ImageV
  ctx : FilterCtx

/-- Execute one `filterImage` call against the world. -/
def stepWorld (w : World) (e : WEvent) : World :=
  match w.nodes[e.nodeIdx]? with
  | none => w
  | some wn =>
      let r := SkImageFilter.filterImage wn.node e.src e.ctx w.cache wn.recorded
      ⟨r.cache, w.nodes.set e.nodeIdx ⟨wn.node, r.recorded⟩, w.evictedLog ++ r.evicted⟩

/-- Execute a trace of evaluation requests. -/
def runWorld (w : World) (es : List WEvent) : World := es.foldl stepWorld w

/-- The keys a given node causes to be inserted into the cache along a
trace: one key per event addressed to that node in which the cache is
present, the probe misses, and the node's computation returns a non-null
result (exactly the condition under which `filterImage` stores and
records). -/
def insertedKeys (w : World) : List WEvent → Nat → List CacheKey
  | [], _ => []
  | e :: es, i =>
      (match w.nodes[e.nodeIdx]? with
       | none => []
       | some wn =>
           if e.nodeIdx = i then
             let key := mkCacheKey wn.node e.src e.ctx
             match w.cache with
             | some c =>
                 match lruFind c.entries key with
                 | some _ => []
                 | none =>
                     match wn.node.onFilterImage e.src e.ctx.ctm e.ctx.clipBounds with
                     | some _ => [key]
                     | none => []
             | none => []
           else []) ++ insertedKeys (stepWorld w e) es i

/-- The set of keys the specification's bookkeeping invariant predicts for a
node: the keys it has caused to be inserted, minus those the cache has since
evicted by capacity. -/
def claimKeys (w : World) (es : List WEvent) (i : Nat) : List CacheKey :=
  (insertedKeys w es i).filter
    (fun k => decide (¬ k ∈ (runWorld w es).evictedLog.map CacheValue.key))

/-! ## Edge builder: fixed-point scaffolding -/

/-- Modelled from the spec: the scalar-to-FDot6 conversion performed by the
external `SkEdge::setLine` (`int(p.fY * float(1 << (shift + 6)))`, a C cast
truncating toward zero), computed exactly on the rational's numerator and
denominator so that no rounding beyond the truncation occurs. -/
def toFDot6 (shift : Nat) (q : ℚ) : Int :=
  Int.tdiv (q.num * (64 * 2 ^ shift)) (q.den : Int)

/-- `SkFDot6Round`: `(x + 32) >> 6`; the arithmetic right shift is floor
division, which is what `/` denotes on `Int` for a positive divisor. -/
def fdot6Round (v : Int) : Int := (v + 32) / 64

/-- A basic (fixed-point) edge record (`SkEdge`): fixed-point `fX`/`fDX`,
integer scanline range `fFirstY ≤ fLastY`, `fWinding` of ±1, and
`fCurveCount` (0 for lines, nonzero for curve edges). -/
structure SkEdgeRec where
  x : Int
  dx : Int
  firstY : Int
  lastY : Int
  winding : Int
  curveCount : Int
deriving DecidableEq

/-- Modelled from the spec: the core of the external `SkEdge::setLine` after
sorting the endpoints by y (`Y0 ≤ Y1`, `w` the winding): round the ys to
scanlines, reject the degenerate zero-height case, otherwise produce the
edge with `fFirstY = top`, `fLastY = bot - 1`, slope `fDX`, and the
fixed-point x at the first scanline center. -/
def mkLineEdge (X0 Y0 X1 Y1 : Int) (w : Int) : Option SkEdgeRec :=
  let top := fdot6Round Y0
  let bot := fdot6Round Y1
  if top = bot then none
  else
    let slope := Int.tdiv ((X1 - X0) * 65536) (Y1 - Y0)
    some ⟨(X0 + Int.fdiv (slope * ((top * 64 + 32) - Y0)) 65536) * 1024,
          slope, top, bot - 1, w, 0⟩

/-- Modelled from the spec: the external `SkEdge::setLine` — convert both
points to FDot6, sort by y recording the winding, and build the edge;
degenerate (zero scanline height) input is rejected (`returns false`). -/
def SkEdge.setLine (shift : Nat) (p0 p1 : PtQ) : Option SkEdgeRec :=
  let x0 := toFDot6 shift p0.x
  let y0 := toFDot6 shift p0.y
  let x1 := toFDot6 shift p1.x
  let y1 := toFDot6 shift p1.y
  if y0 > y1 then mkLineEdge x1 y1 x0 y0 (-1) else mkLineEdge x0 y0 x1 y1 1

/-- The three-valued result of `combineVertical`
(`kNo_Combine`, `kPartial_Combine`, `kTotal_Combine`). -/
inductive Combine where
  | noCombine
  | partCombine
  | totalCombine
deriving DecidableEq

/-- `SkBasicEdgeBuilder::combineVertical` (SkEdgeBuilder.cpp lines 19-58),
returning the verdict together with the (possibly mutated) previous edge. -/
def SkBasicEdgeBuilder.combineVertical (edge last : SkEdgeRec) : Combine × SkEdgeRec :=
  if last.curveCount ≠ 0 ∨ last.dx ≠ 0 ∨ edge.x ≠ last.x then (.noCombine, last)
  else if edge.winding = last.winding then
    if edge.lastY + 1 = last.firstY then (.partCombine, { last with firstY := edge.firstY })
    else if edge.firstY = last.lastY + 1 then (.partCombine, { last with lastY := edge.lastY })
    else (.noCombine, last)
  else if edge.firstY = last.firstY then
    if edge.lastY = last.lastY then (.totalCombine, last)
    else if edge.lastY < last.lastY then (.partCombine, { last with firstY := edge.lastY + 1 })
    else (.partCombine, { last with firstY := last.lastY + 1, lastY := edge.lastY,
                                    winding := edge.winding })
  else if edge.lastY = last.lastY then
    if edge.firstY > last.firstY then (.partCombine, { last with lastY := edge.firstY - 1 })
    else (.partCombine, { last with lastY := last.firstY - 1, firstY := edge.firstY,
                                    winding := edge.winding })
  else (.noCombine, last)

/-- `is_vertical` (SkEdgeBuilder.cpp lines 110-114). -/
def isVerticalE (e : SkEdgeRec) : Bool := decide (e.dx = 0) && decide (e.curveCount = 0)

/-- `SkBasicEdgeBuilder::addLine` (SkEdgeBuilder.cpp lines 119-132) acting on
the edge list (most recently appended first, i.e. the head is `fList.top()`):
skip edges `setLine` rejects; attempt a vertical fuse with the top edge,
popping it on `kTotal_Combine`, replacing it on `kPartial_Combine`, and
pushing the new edge on `kNo_Combine`.  `addPolyLine`
(SkEdgeBuilder.cpp lines 195-206) performs the same list discipline through
its edge-pointer bookkeeping, including the `kPartial_Combine` "convenient
lie" on `setLine` failure, which likewise leaves the list unchanged. -/
def addLineEdge (shift : Nat) (edges : List SkEdgeRec) (p0 p1 : PtQ) : List SkEdgeRec :=
  match SkEdge.setLine shift p0 p1 with
  | none => edges
  | some e =>
    match edges with
    | [] => [e]
    | last :: rest =>
      if isVerticalE e then
        match SkBasicEdgeBuilder.combineVertical e last with
        | (.noCombine, _) => e :: last :: rest
        | (.partCombine, last') => last' :: rest
        | (.totalCombine, _) => rest
      else e :: last :: rest

/-! ## Edge builder: curves and the unclipped general path -/

/-- A quadratic segment. -/
structure QuadQ where
  p0 : PtQ
  p1 : PtQ
  p2 : PtQ
deriving DecidableEq

/-- A cubic segment. -/
structure CubicQ where
  p0 : PtQ
  p1 : PtQ
  p2 : PtQ
  p3 : PtQ
deriving DecidableEq

/-- A conic segment with its weight. -/
structure ConicQ where
  p0 : PtQ
  p1 : PtQ
  p2 : PtQ
  w : ℚ
deriving DecidableEq

/-- Modelled from the spec: the shared shape of the external
`SkQuadraticEdge::setQuadratic` / `SkCubicEdge::setCubic` on a y-monotone
piece, whose y extremes are its endpoints: round the endpoint ys to
scanlines, reject the degenerate zero-height piece, otherwise produce a
curve edge (`fCurveCount ≠ 0`).  The curve-specific forward-differencing
state is an implementation concern per the spec and is not represented;
`fDX` is irrelevant for curve edges since `fCurveCount ≠ 0` already blocks
vertical fusion. -/
def curveSet (shift : Nat) (pA pB : PtQ) : Option SkEdgeRec :=
  let y0 := toFDot6 shift pA.y
  let y1 := toFDot6 shift pB.y
  let top := fdot6Round (min y0 y1)
  let bot := fdot6Round (max y0 y1)
  if top = bot then none
  else some ⟨toFDot6 shift pA.x * 1024, 0, top, bot - 1, if y0 > y1 then -1 else 1, 1⟩

/-- Modelled from the spec: the external `SkQuadraticEdge::setQuadratic`. -/
def SkQuadraticEdge.setQuadratic (shift : Nat) (q : QuadQ) : Option SkEdgeRec :=
  curveSet shift q.p0 q.p2

/-- Modelled from the spec: the external `SkCubicEdge::setCubic`. -/
def SkCubicEdge.setCubic (shift : Nat) (c : CubicQ) : Option SkEdgeRec :=
  curveSet shift c.p0 c.p3

/-- `SkBasicEdgeBuilder::addQuad` (SkEdgeBuilder.cpp lines 155-160): push the
edge unless `setQuadratic` rejects it; no fusion for curve edges. -/
def addQuadEdge (shift : Nat) (edges : List SkEdgeRec) (q : QuadQ) : List SkEdgeRec :=
  match SkQuadraticEdge.setQuadratic shift q with
  | none => edges
  | some e => e :: edges

/-- `SkBasicEdgeBuilder::addCubic` (SkEdgeBuilder.cpp lines 174-179). -/
def addCubicEdge (shift : Nat) (edges : List SkEdgeRec) (c : CubicQ) : List SkEdgeRec :=
  match SkCubicEdge.setCubic shift c with
  | none => edges
  | some e => e :: edges

/-- One segment of the forced-closed verb stream the path iterator yields:
`Move`/`Close` verbs carry no geometry of their own and are dropped by the
builder, so a contour is the list of its geometric segments. -/
inductive Seg where
  | line (p0 p1 : PtQ)
  | quad (q : QuadQ)
  | conic (k : ConicQ)
  | cubic (c : CubicQ)
deriving DecidableEq

/-- Start point of a segment. -/
def Seg.startPt : Seg → PtQ
  | .line p0 _ => p0
  | .quad q => q.p0
  | .conic k => k.p0
  | .cubic c => c.p0

/-- End point of a segment. -/
def Seg.endPt : Seg → PtQ
  | .line _ p1 => p1
  | .quad q => q.p2
  | .conic k => k.p2
  | .cubic c => c.p3

/-- Whether a segment is a line verb. -/
def Seg.isLine : Seg → Bool
  | .line _ _ => true
  | _ => false

/-- The external curve collaborators (`SkChopQuadAtYExtrema`,
`SkChopCubicAtYExtrema`, `SkAutoConicToQuads::computeQuads`), supplied as
oracles; their well-formedness (they chop a segment into a chain that still
runs from its start point to its end point) is stated below. -/
structure CurveOracles where
  chopQuadAtYExtrema : QuadQ → List QuadQ
  chopCubicAtYExtrema : CubicQ → List CubicQ
  computeQuads : ConicQ → List QuadQ

/-- The pieces form a chain from `a` to `b` (quads). -/
def quadChainB (a b : PtQ) : List QuadQ → Bool
  | [] => decide (a = b)
  | q :: rest => decide (q.p0 = a) && quadChainB q.p2 b rest

/-- The pieces form a chain from `a` to `b` (cubics). -/
def cubicChainB (a b : PtQ) : List CubicQ → Bool
  | [] => decide (a = b)
  | c :: rest => decide (c.p0 = a) && cubicChainB c.p3 b rest

/-- Modelled from the spec: each external chopper yields monotone pieces
that chain from the original segment's start point to its end point. -/
def CurveOraclesWF (fns : CurveOracles) : Prop :=
  (∀ q, quadChainB q.p0 q.p2 (fns.chopQuadAtYExtrema q) = true) ∧
  (∀ c, cubicChainB c.p0 c.p3 (fns.chopCubicAtYExtrema c) = true) ∧
  (∀ k, quadChainB k.p0 k.p2 (fns.computeQuads k) = true)

/-- Identity oracles: a valid instantiation of the external choppers for
segments that are already monotone. -/
def idCurveOracles : CurveOracles :=
  ⟨fun q => [q], fun c => [c], fun k => [⟨k.p0, k.p1, k.p2⟩]⟩

/-- One verb of `SkEdgeBuilder::build` without a clip
(SkEdgeBuilder.cpp lines 407-455): lines are appended directly; quads are
chopped at y extrema and appended piecewise; conics are approximated by
quads, each handled as a quad; cubics are chopped at y extrema when
`chopCubics()` holds and appended as-is otherwise. -/
def buildStep (fns : CurveOracles) (chopC : Bool) (shift : Nat)
    (edges : List SkEdgeRec) : Seg → List SkEdgeRec
  | .line p0 p1 => addLineEdge shift edges p0 p1
  | .quad q => (fns.chopQuadAtYExtrema q).foldl (addQuadEdge shift) edges
  | .conic k =>
      (fns.computeQuads k).foldl
        (fun es qq => (fns.chopQuadAtYExtrema qq).foldl (addQuadEdge shift) es) edges
  | .cubic c =>
      if chopC then (fns.chopCubicAtYExtrema c).foldl (addCubicEdge shift) edges
      else addCubicEdge shift edges c

/-- `SkEdgeBuilder::build` without a clip (SkEdgeBuilder.cpp lines 407-457):
fold the per-verb dispatch over every contour's segments. -/
def SkEdgeBuilder.build (fns : CurveOracles) (chopC : Bool) (shift : Nat)
    (cs : List (List Seg)) : List SkEdgeRec :=
  cs.foldl (fun es c => c.foldl (buildStep fns chopC shift) es) []

/-! ## Edge builder: line clipper and the polyline fast path -/

/-- Modelled from the spec: `sect_with_horizontal` of the external line
clipper — the x coordinate where the segment meets a horizontal line. -/
def sectWithHorizontal (p0 p1 : PtQ) (y : ℚ) : ℚ :=
  if p0.y = p1.y then p0.x
  else p0.x + (y - p0.y) * (p1.x - p0.x) / (p1.y - p0.y)

/-- Modelled from the spec: `sect_with_vertical` of the external line
clipper — the y coordinate where the segment meets a vertical line. -/
def sectWithVertical (p0 p1 : PtQ) (x : ℚ) : ℚ :=
  if p0.x = p1.x then p0.y
  else p0.y + (x - p0.x) * (p1.y - p0.y) / (p1.x - p0.x)

/-- Modelled from the spec: the maximum number of sub-segments the external
line clipper produces from one line (a pinned-left piece, a middle piece and
a pinned-right piece). -/
def SkLineClipper.kMaxClippedLineSegments : Nat := 3

/-- Modelled from the spec: the external `SkLineClipper::ClipLine`.  Reject
segments wholly above or below the clip; chop the remainder to the clip's
vertical range; a segment wholly left of the clip is pinned to a vertical
segment on the clip's left edge; a segment wholly right of it is culled when
`canCullToTheRight` holds and pinned to the right edge otherwise; any other
segment is chopped at the clip's left/right edges into at most three pieces
(overhangs become vertical pinned segments), emitted in the original
direction. -/
def SkLineClipper.ClipLine (p0 p1 : PtQ) (clip : RectQ) (canCullToTheRight : Bool) :
    List (PtQ × PtQ) :=
  let a := if p0.y < p1.y then p0 else p1
  let b := if p0.y < p1.y then p1 else p0
  if b.y ≤ clip.top then []
  else if a.y ≥ clip.bottom then []
  else
    let a' := if a.y < clip.top then (⟨sectWithHorizontal a b clip.top, clip.top⟩ : PtQ) else a
    let b' := if b.y > clip.bottom then (⟨sectWithHorizontal a b clip.bottom, clip.bottom⟩ : PtQ) else b
    -- back to the original point order
    let t0 := if p0.y < p1.y then a' else b'
    let t1 := if p0.y < p1.y then b' else a'
    if t0.x ≤ clip.left ∧ t1.x ≤ clip.left then
      [(⟨clip.left, t0.y⟩, ⟨clip.left, t1.y⟩)]
    else if t0.x ≥ clip.right ∧ t1.x ≥ clip.right then
      if canCullToTheRight then []
      else [(⟨clip.right, t0.y⟩, ⟨clip.right, t1.y⟩)]
    else
      let u := if t0.x < t1.x then t0 else t1
      let v := if t0.x < t1.x then t1 else t0
      let leftPieces : List (PtQ × PtQ) :=
        if u.x < clip.left then
          [((⟨clip.left, u.y⟩ : PtQ), (⟨clip.left, sectWithVertical u v clip.left⟩ : PtQ))]
        else []
      let midStart : PtQ := if u.x < clip.left then ⟨clip.left, sectWithVertical u v clip.left⟩ else u
      let midEnd : PtQ := if v.x > clip.right then ⟨clip.right, sectWithVertical u v clip.right⟩ else v
      let rightPieces : List (PtQ × PtQ) :=
        if v.x > clip.right then
          [((⟨clip.right, sectWithVertical u v clip.right⟩ : PtQ), (⟨clip.right, v.y⟩ : PtQ))]
        else []
      let pieces := leftPieces ++ [(midStart, midEnd)] ++ rightPieces
      if t0.x < t1.x then pieces else (pieces.reverse).map (fun pr => (pr.2, pr.1))

/-- `SkBasicEdgeBuilder::recoverClip` (SkEdgeBuilder.cpp lines 229-234):
undo the pre-shift on the stored clip (arithmetic right shift, i.e. floor
division) and return it as a scalar rectangle. -/
def SkBasicEdgeBuilder.recoverClip (shift : Nat) (src : IRectI) : RectQ :=
  ⟨((src.left / (2 ^ shift : Int) : Int) : ℚ),
   ((src.top / (2 ^ shift : Int) : Int) : ℚ),
   ((src.right / (2 ^ shift : Int) : Int) : ℚ),
   ((src.bottom / (2 ^ shift : Int) : Int) : ℚ)⟩

/-- Modelled from the spec: `SkPath::countPoints()` for a forced-closed
all-line path — one distinct vertex per line segment of each closed
contour. -/
def countPoints (cs : List (List Seg)) : Nat := (cs.map List.length).sum

/-- The observable outcome of `buildPoly`: the returned edge count, the
number of edge slots allocated (`none` when the builder aborted before
allocating), and the edges appended. -/
structure PolyResult where
  count : Nat
  allocated : Option Nat
  edges : List SkEdgeRec
deriving DecidableEq

/-- The per-verb work of `SkEdgeBuilder::buildPoly`
(SkEdgeBuilder.cpp lines 283-331): line verbs are clipped (when a clip is
present) and appended through `addPolyLine`; any other verb is a debug
failure and is ignored. -/
def addPolyLineSegs (shift : Nat) (clipQ : Option (RectQ × Bool))
    (es : List SkEdgeRec) : Seg → List SkEdgeRec
  | .line p0 p1 =>
      match clipQ with
      | some (r, cull) =>
          (SkLineClipper.ClipLine p0 p1 r cull).foldl
            (fun es2 pr => addLineEdge shift es2 pr.1 pr.2) es
      | none => addLineEdge shift es p0 p1
  | _ => es

/-- `SkEdgeBuilder::buildPoly` (SkEdgeBuilder.cpp lines 256-335): compute the
worst-case edge count (`countPoints`, times `kMaxClippedLineSegments` under a
clip, with the `SkSafeMath` overflow check of the 64-bit `size_t` product
aborting with count 0 before any allocation); then clip and append every
line verb. -/
def SkEdgeBuilder.buildPoly (shift : Nat) (cs : List (List Seg)) :
    Option IRectI → Bool → PolyResult
  | some ic, canCull =>
      if 2 ^ 64 ≤ countPoints cs * SkLineClipper.kMaxClippedLineSegments then ⟨0, none, []⟩
      else
        let r := SkBasicEdgeBuilder.recoverClip shift ic
        let edges := cs.foldl (fun es c => c.foldl (addPolyLineSegs shift (some (r, canCull))) es) []
        ⟨edges.length, some (countPoints cs * SkLineClipper.kMaxClippedLineSegments), edges⟩
  | none, _ =>
      let edges := cs.foldl (fun es c => c.foldl (addPolyLineSegs shift none) es) []
      ⟨edges.length, some (countPoints cs), edges⟩

/-! ## Edge builder: the clipped general path and the finiteness gate -/

/-- A scalar as it comes back from the external edge clipper: either a
finite value or one of the IEEE non-finite values. -/
inductive FScalar where
  | val (q : ℚ)
  | pinf
  | ninf
  | nan
deriving DecidableEq

/-- `SkScalarIsFinite` on one scalar. -/
def FScalar.isFinite : FScalar → Bool
  | .val _ => true
  | _ => false

/-- The rational value of a finite scalar (0 for the non-finite values,
which the builder never converts: it aborts first). -/
def FScalar.toQ : FScalar → ℚ
  | .val q => q
  | _ => 0

/-- A point drained from the external edge clipper. -/
structure FPt where
  x : FScalar
  y : FScalar
deriving DecidableEq

/-- The finite point underlying a drained point. -/
def FPt.toPtQ (p : FPt) : PtQ := ⟨p.x.toQ, p.y.toQ⟩

/-- One monotone piece drained from the external edge clipper. -/
inductive DrainSeg where
  | dline (p0 p1 : FPt)
  | dquad (p0 p1 p2 : FPt)
  | dcubic (p0 p1 p2 p3 : FPt)
deriving DecidableEq

/-- The coordinates of a drained piece, as checked by
`SkScalarsAreFinite(&pts[0].fX, count*2)`. -/
def DrainSeg.coords : DrainSeg → List FScalar
  | .dline p0 p1 => [p0.x, p0.y, p1.x, p1.y]
  | .dquad p0 p1 p2 => [p0.x, p0.y, p1.x, p1.y, p2.x, p2.y]
  | .dcubic p0 p1 p2 p3 => [p0.x, p0.y, p1.x, p1.y, p2.x, p2.y, p3.x, p3.y]

/-- Whether every coordinate of a drained piece is finite. -/
def DrainSeg.finite (d : DrainSeg) : Bool := d.coords.all FScalar.isFinite

/-- Modelled from the spec: the external `SkEdgeClipper`, supplied as an
oracle.  For each curve it either rejects (`clip*` returned false, nothing
to drain) or yields the monotone pieces its drain loop produces in order. -/
structure ClipOracle where
  clipLine : PtQ → PtQ → RectQ → Option (List DrainSeg)
  clipQuad : QuadQ → RectQ → Option (List DrainSeg)
  clipCubic : CubicQ → RectQ → Option (List DrainSeg)

/-- A clip oracle that rejects everything (every `clip*` call returns
false); a valid instantiation for paths wholly outside the clip. -/
def emptyClipOracle : ClipOracle := ⟨fun _ _ _ => none, fun _ _ => none, fun _ _ => none⟩

/-- The drain loop `apply_clipper` (SkEdgeBuilder.cpp lines 351-368) on one
clip result: append each drained piece, but on the first piece with a
non-finite coordinate clear `is_finite` and abandon the rest of this drain.
The flag is never reset; later verbs are still processed. -/
def drainAll (shift : Nat) : List DrainSeg → List SkEdgeRec × Bool → List SkEdgeRec × Bool
  | [], st => st
  | d :: rest, (es, fin) =>
      if d.finite then
        match d with
        | .dline p0 p1 => drainAll shift rest (addLineEdge shift es p0.toPtQ p1.toPtQ, fin)
        | .dquad p0 p1 p2 =>
            drainAll shift rest (addQuadEdge shift es ⟨p0.toPtQ, p1.toPtQ, p2.toPtQ⟩, fin)
        | .dcubic p0 p1 p2 p3 =>
            drainAll shift rest (addCubicEdge shift es ⟨p0.toPtQ, p1.toPtQ, p2.toPtQ, p3.toPtQ⟩, fin)
      else (es, false)

/-- One verb of `SkEdgeBuilder::build` with a clip
(SkEdgeBuilder.cpp lines 370-406): clip the curve (conics first becoming
quads) and drain the clipper. -/
def clipStep (co : ClipOracle) (fns : CurveOracles) (shift : Nat) (clipR : RectQ)
    (st : List SkEdgeRec × Bool) : Seg → List SkEdgeRec × Bool
  | .line p0 p1 =>
      match co.clipLine p0 p1 clipR with
      | some ds => drainAll shift ds st
      | none => st
  | .quad q =>
      match co.clipQuad q clipR with
      | some ds => drainAll shift ds st
      | none => st
  | .conic k =>
      (fns.computeQuads k).foldl
        (fun st2 qq =>
          match co.clipQuad qq clipR with
          | some ds => drainAll shift ds st2
          | none => st2) st
  | .cubic c =>
      match co.clipCubic c clipR with
      | some ds => drainAll shift ds st
      | none => st

/-- `SkEdgeBuilder::build` with a clip (SkEdgeBuilder.cpp lines 337-457):
drain the clipper verb by verb and return the edge count, or 0 when any
drained coordinate was non-finite. -/
def SkEdgeBuilder.buildClipped (co : ClipOracle) (fns : CurveOracles) (shift : Nat)
    (ic : IRectI) (cs : List (List Seg)) : Nat :=
  let clipR := SkBasicEdgeBuilder.recoverClip shift ic
  let st := cs.foldl (fun st2 c => c.foldl (clipStep co fns shift clipR) st2) ([], true)
  if st.2 then st.1.length else 0

/-- Whether some drained piece among those the clip oracle yields for this
segment has a non-finite coordinate. -/
def segDrainNonFinite (co : ClipOracle) (fns : CurveOracles) (clipR : RectQ) : Seg → Bool
  | .line p0 p1 =>
      match co.clipLine p0 p1 clipR with
      | some ds => ds.any (fun d => ! d.finite)
      | none => false
  | .quad q =>
      match co.clipQuad q clipR with
      | some ds => ds.any (fun d => ! d.finite)
      | none => false
  | .conic k =>
      (fns.computeQuads k).any (fun qq =>
        match co.clipQuad qq clipR with
        | some ds => ds.any (fun d => ! d.finite)
        | none => false)
  | .cubic c =>
      match co.clipCubic c clipR with
      | some ds => ds.any (fun d => ! d.finite)
      | none => false

/-- Whether any drained piece of the whole build has a non-finite
coordinate. -/
def anyNonFiniteDrain (co : ClipOracle) (fns : CurveOracles) (shift : Nat)
    (ic : IRectI) (cs : List (List Seg)) : Bool :=
  cs.any (fun c => c.any (segDrainNonFinite co fns (SkBasicEdgeBuilder.recoverClip shift ic)))

/-! ## Edge builder: dispatch (`buildEdges`) and path attributes -/

/-- Cross product of the edge vectors `o→a` and `o→b`. -/
def crossQ (o a b : PtQ) : ℚ :=
  (a.x - o.x) * (b.y - o.y) - (a.y - o.y) * (b.x - o.x)

/-- The cyclic cross products of consecutive vertex triples. -/
def convexCrosses (vs : List PtQ) : List ℚ :=
  (List.range vs.length).map (fun i =>
    crossQ (vs.getD i ⟨0, 0⟩) (vs.getD ((i + 1) % vs.length) ⟨0, 0⟩)
           (vs.getD ((i + 2) % vs.length) ⟨0, 0⟩))

/-- Whether a closed vertex cycle is convex: all turns in one direction. -/
def convexOf (vs : List PtQ) : Bool :=
  (convexCrosses vs).all (fun q => decide (q ≥ 0)) ||
  (convexCrosses vs).all (fun q => decide (q ≤ 0))

/-- Modelled from the spec: the external `SkPath::isConvex()` attribute — a
single contour all of whose turns share one direction; paths with several
contours are not convex. -/
def SkPath.isConvex (cs : List (List Seg)) : Bool :=
  match cs with
  | [c] => convexOf (c.map Seg.startPt)
  | _ => false

/-- Whether the path consists solely of line verbs
(`SkPath::getSegmentMasks() == kLine_SegmentMask`). -/
def pathIsLinesOnly (cs : List (List Seg)) : Bool := cs.all (fun c => c.all Seg.isLine)

/-- `SkEdgeBuilder::buildEdges` (SkEdgeBuilder.cpp lines 460-481):
`canCullToTheRight = !path.isConvex()`; dispatch to the polyline fast path
when every verb is a line, and to the general path otherwise. -/
def SkEdgeBuilder.buildEdges (fns : CurveOracles) (co : ClipOracle) (chopC : Bool)
    (shift : Nat) (cs : List (List Seg)) (clip : Option IRectI) : Nat :=
  let canCull := ! SkPath.isConvex cs
  if pathIsLinesOnly cs then (SkEdgeBuilder.buildPoly shift cs clip canCull).count
  else
    match clip with
    | some ic => SkEdgeBuilder.buildClipped co fns shift ic cs
    | none => (SkEdgeBuilder.build fns chopC shift cs).length

/-! ## Analytic vertical fusion (`SkAnalyticEdgeBuilder::combineVertical`) -/

/-- An analytic edge record (`SkAnalyticEdge`): fractional fixed-point
`fUpperY`/`fLowerY`/`fY`, fixed-point `fX`/`fDX`, `fWinding`, and
`fCurveCount`. -/
structure SkAnalyticEdgeRec where
  x : Int
  dx : Int
  upperY : Int
  lowerY : Int
  y : Int
  winding : Int
  curveCount : Int
deriving DecidableEq

/-- The `approximately_equal` lambda of
`SkAnalyticEdgeBuilder::combineVertical` (SkEdgeBuilder.cpp lines 62-64):
`SkAbs32(a - b) < 0x100`. -/
def approximatelyEqual (a b : Int) : Bool := decide ((a - b).natAbs < 256)

/-- `SkAnalyticEdgeBuilder::combineVertical` (SkEdgeBuilder.cpp lines
60-108), returning the verdict together with the (possibly mutated)
previous edge. -/
def SkAnalyticEdgeBuilder.combineVertical (edge last : SkAnalyticEdgeRec) :
    Combine × SkAnalyticEdgeRec :=
  if last.curveCount ≠ 0 ∨ last.dx ≠ 0 ∨ edge.x ≠ last.x then (.noCombine, last)
  else if edge.winding = last.winding then
    if edge.lowerY = last.upperY then
      (.partCombine, { last with upperY := edge.upperY, y := edge.upperY })
    else if approximatelyEqual edge.upperY last.lowerY then
      (.partCombine, { last with lowerY := edge.lowerY })
    else (.noCombine, last)
  else if approximatelyEqual edge.upperY last.upperY then
    if approximatelyEqual edge.lowerY last.lowerY then (.totalCombine, last)
    else if edge.lowerY < last.lowerY then
      (.partCombine, { last with upperY := edge.lowerY, y := edge.lowerY })
    else
      (.partCombine, { last with upperY := last.lowerY, y := last.lowerY,
                                 lowerY := edge.lowerY, winding := edge.winding })
  else if approximatelyEqual edge.lowerY last.lowerY then
    if edge.upperY > last.upperY then
      (.partCombine, { last with lowerY := edge.upperY })
    else
      (.partCombine, { last with lowerY := last.upperY, upperY := edge.upperY,
                                 y := edge.upperY, winding := edge.winding })
  else (.noCombine, last)

/-- The claim's reading of the analytic `combineVertical`: every Y-endpoint
comparison — including the same-winding test of the new edge's `fLowerY`
against the previous edge's `fUpperY` — treats two values as equal exactly
when they differ by less than 0x100.  (Stated for comparison with the
source, whose first same-winding test is exact.) -/
def combineVerticalUniformTol (edge last : SkAnalyticEdgeRec) :
    Combine × SkAnalyticEdgeRec :=
  if last.curveCount ≠ 0 ∨ last.dx ≠ 0 ∨ edge.x ≠ last.x then (.noCombine, last)
  else if edge.winding = last.winding then
    if approximatelyEqual edge.lowerY last.upperY then
      (.partCombine, { last with upperY := edge.upperY, y := edge.upperY })
    else if approximatelyEqual edge.upperY last.lowerY then
      (.partCombine, { last with lowerY := edge.lowerY })
    else (.noCombine, last)
  else if approximatelyEqual edge.upperY last.upperY then
    if approximatelyEqual edge.lowerY last.lowerY then (.totalCombine, last)
    else if edge.lowerY < last.lowerY then
      (.partCombine, { last with upperY := edge.lowerY, y := edge.lowerY })
    else
      (.partCombine, { last with upperY := last.lowerY, y := last.lowerY,
                                 lowerY := edge.lowerY, winding := edge.winding })
  else if approximatelyEqual edge.lowerY last.lowerY then
    if edge.upperY > last.upperY then
      (.partCombine, { last with lowerY := edge.upperY })
    else
      (.partCombine, { last with lowerY := last.upperY, upperY := edge.upperY,
                                 y := edge.upperY, winding := edge.winding })
  else (.noCombine, last)

/-! ## Edge builder: winding-content bookkeeping for the count ≠ 1 argument -/

/-- The scanline band a scalar y lands in after FDot6 conversion and
rounding. -/
def bandOf (shift : Nat) (q : ℚ) : Int := fdot6Round (toFDot6 shift q)

/-- The signed number of scanline bands a segment crosses. -/
def Seg.bandDelta (shift : Nat) (s : Seg) : Int :=
  bandOf shift s.endPt.y - bandOf shift s.startPt.y

/-- The signed scanline content of one edge. -/
def edgeDelta (e : SkEdgeRec) : Int := e.winding * (e.lastY - e.firstY + 1)

/-- The signed scanline content of an edge list. -/
def sumDelta (es : List SkEdgeRec) : Int := (es.map edgeDelta).sum

/-- The invariant every edge in the list satisfies: a ±1 winding and a
nonempty scanline range. -/
def GoodEdge (e : SkEdgeRec) : Prop :=
  (e.winding = 1 ∨ e.winding = -1) ∧ e.firstY ≤ e.lastY

/-- The segments form a chain from `a` to `b`. -/
def segChainB (a b : PtQ) : List Seg → Bool
  | [] => decide (a = b)
  | s :: rest => decide (s.startPt = a) && segChainB s.endPt b rest

/-- A closed contour: a nonempty segment chain that returns to its first
segment's start point (the iterator is constructed with `forceClose`). -/
def ClosedContourB (c : List Seg) : Bool :=
  match c with
  | [] => false
  | s :: _ => segChainB s.startPt s.startPt c

/-- The amended description of the analytic `combineVertical`: every
Y-endpoint comparison uses the `|a - b| < 0x100` tolerance except the
same-winding test of the new edge's `fLowerY` against the previous edge's
`fUpperY` (the extend-upward case), which requires exact equality. -/
def combineVerticalAmendedSpec (edge last : SkAnalyticEdgeRec) :
    Combine × SkAnalyticEdgeRec :=
  if last.curveCount ≠ 0 ∨ last.dx ≠ 0 ∨ edge.x ≠ last.x then (.noCombine, last)
  else if edge.winding = last.winding then
    if edge.lowerY = last.upperY then
      (.partCombine, { last with upperY := edge.upperY, y := edge.upperY })
    else if approximatelyEqual edge.upperY last.lowerY then
      (.partCombine, { last with lowerY := edge.lowerY })
    else (.noCombine, last)
  else if approximatelyEqual edge.upperY last.upperY then
    if approximatelyEqual edge.lowerY last.lowerY then (.totalCombine, last)
    else if edge.lowerY < last.lowerY then
      (.partCombine, { last with upperY := edge.lowerY, y := edge.lowerY })
    else
      (.partCombine, { last with upperY := last.lowerY, y := last.lowerY,
                                 lowerY := edge.lowerY, winding := edge.winding })
  else if approximatelyEqual edge.lowerY last.lowerY then
    if edge.upperY > last.upperY then
      (.partCombine, { last with lowerY := edge.upperY })
    else
      (.partCombine, { last with lowerY := last.upperY, upperY := edge.upperY,
                                 y := edge.upperY, winding := edge.winding })
  else (.noCombine, last)

/-! ## Concrete instances used by the counterexamples and witnesses -/

/-- A cache key with a given node id and all other fingerprint fields at
their zero values. -/
def simpleKey (i : Nat) : CacheKey := ⟨i, ⟨0, 0, 0, 0, 0, 0⟩, ⟨0, 0, 0, 0⟩, 0, ⟨0, 0, 0, 0⟩⟩

/-- An image with a given generation id and byte size. -/
def simpleImage (i sz : Nat) : ImageV := ⟨i, ⟨0, 0, 0, 0⟩, sz⟩

/-- A cache holding a single entry of declared size zero; its byte count is
already zero. -/
def zeroSizeState : CacheImplState :=
  ⟨[⟨simpleKey 1, simpleImage 1 0, ⟨0, 0⟩⟩], 0, 100⟩

/-- A node whose computation always fails (returns a null image). -/
def nullNode : FilterNode := ⟨1, false, fun _ _ _ => none⟩

/-- A node whose computation succeeds, echoing the source image. -/
def okNode : FilterNode := ⟨2, true, fun s _ _ => some (s, ⟨1, 2⟩)⟩

/-- An empty cache with a large budget. -/
def emptyCache : CacheImplState := ⟨[], 0, 1000⟩

/-- A fixed evaluation context. -/
def someCtx : FilterCtx := ⟨⟨0, 0, 0, 0, 0, 0⟩, ⟨0, 0, 10, 10⟩⟩

/-- A fixed source image. -/
def someSrc : ImageV := ⟨7, ⟨0, 0, 5, 5⟩, 25⟩

/-- A node computing a 100-byte result. -/
def nodeA : FilterNode := ⟨1, false, fun _ _ _ => some (simpleImage 11 100, ⟨0, 0⟩)⟩

/-- A second node computing a 100-byte result. -/
def nodeB : FilterNode := ⟨2, false, fun _ _ _ => some (simpleImage 12 100, ⟨0, 0⟩)⟩

/-- A world with a 150-byte cache and the two nodes above. -/
def worldAB : World := ⟨some ⟨[], 0, 150⟩, [⟨nodeA, []⟩, ⟨nodeB, []⟩], []⟩

/-- Ask node A to filter, then node B: B's insertion evicts A's entry. -/
def eventsAB : List WEvent := [⟨0, someSrc, someCtx⟩, ⟨1, someSrc, someCtx⟩]

/-- The analytic-edge counterexample inputs: the new edge ends within
0x100 of the previous edge's upper end (but not exactly on it), same
winding, both vertical at the same x. -/
def aEdgeNew : SkAnalyticEdgeRec := ⟨0, 0, 0, 128, 0, 1, 0⟩

/-- The previous analytic edge for the counterexample. -/
def aEdgePrev : SkAnalyticEdgeRec := ⟨0, 0, 256, 4096, 256, 1, 0⟩

/-- A clip oracle whose line clipper drains one piece with a NaN
coordinate. -/
def nanClipOracle : ClipOracle :=
  ⟨fun _ _ _ => some [DrainSeg.dline ⟨FScalar.nan, FScalar.val 0⟩ ⟨FScalar.val 0, FScalar.val 1⟩],
   fun _ _ => none, fun _ _ => none⟩

/-- The non-convex counterexample polygon: the left edge runs up the clip's
interior at x = 0; the rest of the boundary (with a reflex vertex at
(15, 4)) lies at x ≥ 20, wholly right of the clip `[0,8] × [0,8]`. -/
def cexContour : List Seg :=
  [Seg.line ⟨0, 0⟩ ⟨0, 8⟩,
   Seg.line ⟨0, 8⟩ ⟨20, 8⟩,
   Seg.line ⟨20, 8⟩ ⟨20, 5⟩,
   Seg.line ⟨20, 5⟩ ⟨15, 4⟩,
   Seg.line ⟨15, 4⟩ ⟨20, 3⟩,
   Seg.line ⟨20, 3⟩ ⟨20, 0⟩,
   Seg.line ⟨20, 0⟩ ⟨0, 0⟩]

/-- The counterexample path. -/
def cexPath : List (List Seg) := [cexContour]

/-- The counterexample clip. -/
def cexClip : IRectI := ⟨0, 0, 8, 8⟩

/-- A closed convex triangle used to instantiate the unclipped theorem. -/
def triPath : List (List Seg) :=
  [[Seg.line ⟨0, 0⟩ ⟨10, 0⟩, Seg.line ⟨10, 0⟩ ⟨0, 10⟩, Seg.line ⟨0, 10⟩ ⟨0, 0⟩]]

/-! ## Cache lemmas -/

theorem sumSizes_cons (v : CacheValue) (l : List CacheValue) :
    sumSizes (v :: l) = v.image.size + sumSizes l := by
  simp [sumSizes]

theorem sumSizes_append (a b : List CacheValue) :
    sumSizes (a ++ b) = sumSizes a + sumSizes b := by
  simp [sumSizes]

theorem sumSizes_reverse (l : List CacheValue) : sumSizes l.reverse = sumSizes l := by
  simp [sumSizes, List.sum_reverse]

theorem lruFind_none_keys (l : List CacheValue) (k : CacheKey)
    (h : lruFind l k = none) : ∀ v ∈ l, v.key ≠ k := by
  intro v hv
  have := List.find?_eq_none.mp h v hv
  simpa using this

theorem lruFind_some_sum (l : List CacheValue) (k : CacheKey) (v0 : CacheValue)
    (h : lruFind l k = some v0) :
    sumSizes l = v0.image.size + sumSizes (lruRemove l k) := by
  induction l with
  | nil => simp [lruFind] at h
  | cons x rest ih =>
      by_cases hx : x.key = k
      · simp [lruFind, List.find?_cons, hx] at h
        subst h
        simp [lruRemove, List.eraseP_cons, hx, sumSizes_cons]
      · simp [lruFind, List.find?_cons, hx] at h
        have := ih h
        simp [lruRemove, List.eraseP_cons, hx, sumSizes_cons] at this ⊢
        omega

theorem lruRemove_sublist (l : List CacheValue) (k : CacheKey) :
    List.Sublist (lruRemove l k) l := List.eraseP_sublist l

theorem lruRemove_keys (l : List CacheValue) (k : CacheKey)
    (h : l.Pairwise (fun a b => a.key ≠ b.key)) : ∀ v ∈ lruRemove l k, v.key ≠ k := by
  induction l with
  | nil => intro v hv; simp [lruRemove] at hv
  | cons x rest ih =>
      obtain ⟨hx, hrest⟩ := List.pairwise_cons.mp h
      by_cases hxk : x.key = k
      · intro v hv
        simp [lruRemove, List.eraseP_cons, hxk] at hv
        exact fun hvk => (hx v hv) (hvk ▸ hxk ▸ rfl)
      · intro v hv
        simp [lruRemove, List.eraseP_cons, hxk] at hv
        rcases hv with rfl | hv
        · exact hxk
        · exact ih hrest v hv

/-- What `removeKey` guarantees on a well-formed state: well-formedness is
preserved, `maxBytes` is kept, and no entry with the removed key remains. -/
theorem removeKey_spec (s : CacheImplState) (k : CacheKey) (h : CacheWF s) :
    CacheWF (CacheImpl.removeKey s k) ∧
    (CacheImpl.removeKey s k).maxBytes = s.maxBytes ∧
    (∀ v ∈ (CacheImpl.removeKey s k).entries, v.key ≠ k) := by
  obtain ⟨hsum, hpw⟩ := h
  unfold CacheImpl.removeKey
  cases hfind : lruFind s.entries k with
  | none =>
      exact ⟨⟨hsum, hpw⟩, rfl, lruFind_none_keys s.entries k hfind⟩
  | some v0 =>
      refine ⟨⟨?_, hpw.sublist (lruRemove_sublist s.entries k)⟩, rfl, ?_⟩
      · show s.currentBytes - v0.image.size = sumSizes (lruRemove s.entries k)
        have := lruFind_some_sum s.entries k v0 hfind
        omega
      · exact lruRemove_keys s.entries k hpw

theorem evictTail_app (maxB : Nat) (v : CacheValue) (l : List CacheValue) :
    ∀ (cur : Nat) (ev : List CacheValue),
      (∀ e ∈ l, e.key ≠ v.key) → cur = sumSizes (l ++ [v]) →
      ∃ l' pre,
        (evictTail maxB v.key (l ++ [v]) cur ev).1 = l' ++ [v] ∧
        pre ++ l' = l ∧
        (evictTail maxB v.key (l ++ [v]) cur ev).2.1 = sumSizes (l' ++ [v]) ∧
        ((evictTail maxB v.key (l ++ [v]) cur ev).2.1 ≤ maxB ∨ l' = []) := by
  induction l with
  | nil =>
      intro cur ev _ hsum
      have hstep : evictTail maxB v.key ([] ++ [v]) cur ev = ([v], cur, ev) := by
        rw [List.nil_append, evictTail]
        by_cases hc : maxB < cur
        · rw [if_pos hc, if_pos rfl]
        · rw [if_neg hc]
      refine ⟨[], [], by rw [List.nil_append] at hstep ⊢; rw [hstep], rfl,
              by rw [List.nil_append] at hstep ⊢; rw [hstep]; exact hsum, ?_⟩
      by_cases hc : maxB < cur
      · exact Or.inr rfl
      · left
        rw [List.nil_append] at hstep ⊢
        rw [hstep]
        show cur ≤ maxB
        omega
  | cons t rest ih =>
      intro cur ev hkeys hsum
      have htk : ¬ t.key = v.key := hkeys t (by simp)
      by_cases hc : maxB < cur
      · have hsum' : cur - t.image.size = sumSizes (rest ++ [v]) := by
          rw [hsum, List.cons_append, sumSizes_cons]
          omega
        obtain ⟨l', pre, h1, h2, h3, h4⟩ :=
          ih (cur - t.image.size) (ev ++ [t]) (fun e he => hkeys e (by simp [he])) hsum'
        have hstep : evictTail maxB v.key ((t :: rest) ++ [v]) cur ev
            = evictTail maxB v.key (rest ++ [v]) (cur - t.image.size) (ev ++ [t]) := by
          rw [List.cons_append, evictTail]
          rw [if_pos hc, if_neg htk]
        refine ⟨l', t :: pre, ?_, ?_, ?_, ?_⟩
        · rw [hstep]; exact h1
        · simp [← h2]
        · rw [hstep]; exact h3
        · rw [hstep]; exact h4
      · have hstep : evictTail maxB v.key ((t :: rest) ++ [v]) cur ev
            = ((t :: rest) ++ [v], cur, ev) := by
          rw [List.cons_append, evictTail]
          rw [if_neg hc]
        refine ⟨t :: rest, [], by rw [hstep], by simp, by rw [hstep]; exact hsum,
                Or.inl (by rw [hstep]; show cur ≤ maxB; omega)⟩

theorem pairwise_keys_reverse (l : List CacheValue)
    (h : l.Pairwise (fun a b => a.key ≠ b.key)) :
    l.reverse.Pairwise (fun a b => a.key ≠ b.key) := by
  rw [List.pairwise_reverse]
  exact h.imp Ne.symm

/-- The shared specification of `CacheImpl::set` on a well-formed state: it
preserves well-formedness, keeps `maxBytes`, stores the new entry at the
head of the LRU list (where a lookup of its key finds it), stays within the
budget unless the new entry is alone in the cache, and leaves no other entry
with the same key. -/
theorem cacheSet_spec (s : CacheImplState) (k : CacheKey) (img : ImageV) (off : IPt)
    (h : CacheWF s) :
    CacheWF (CacheImpl.set s k img off).1 ∧
    (CacheImpl.set s k img off).1.maxBytes = s.maxBytes ∧
    lruFind (CacheImpl.set s k img off).1.entries k = some ⟨k, img, off⟩ ∧
    ((CacheImpl.set s k img off).1.currentBytes ≤ s.maxBytes ∨
      (CacheImpl.set s k img off).1.entries = [⟨k, img, off⟩]) ∧
    (∀ v ∈ (CacheImpl.set s k img off).1.entries, v.key = k → v = ⟨k, img, off⟩) := by
  obtain ⟨hwf1, -, hk1⟩ := removeKey_spec s k h
  obtain ⟨hc1, hpw1⟩ := hwf1
  have hrev : ((⟨k, img, off⟩ : CacheValue) :: (CacheImpl.removeKey s k).entries).reverse
      = (CacheImpl.removeKey s k).entries.reverse ++ [⟨k, img, off⟩] := by simp
  have hkeysrev : ∀ e ∈ (CacheImpl.removeKey s k).entries.reverse,
      e.key ≠ (⟨k, img, off⟩ : CacheValue).key := by
    intro e he
    exact hk1 e (List.mem_reverse.mp he)
  have hsumrev : (CacheImpl.removeKey s k).currentBytes + img.size
      = sumSizes ((CacheImpl.removeKey s k).entries.reverse ++ [⟨k, img, off⟩]) := by
    rw [sumSizes_append, sumSizes_reverse, ← hc1]
    simp [sumSizes]
  obtain ⟨l', pre, h1, h2, h3, h4⟩ :=
    evictTail_app s.maxBytes ⟨k, img, off⟩ (CacheImpl.removeKey s k).entries.reverse
      ((CacheImpl.removeKey s k).currentBytes + img.size) [] hkeysrev hsumrev
  rw [← hrev] at h1 h3 h4
  have hset1 : (CacheImpl.set s k img off).1
      = ⟨(evictTail s.maxBytes k
            ((⟨k, img, off⟩ : CacheValue) :: (CacheImpl.removeKey s k).entries).reverse
            ((CacheImpl.removeKey s k).currentBytes + img.size) []).1.reverse,
         (evictTail s.maxBytes k
            ((⟨k, img, off⟩ : CacheValue) :: (CacheImpl.removeKey s k).entries).reverse
            ((CacheImpl.removeKey s k).currentBytes + img.size) []).2.1,
         s.maxBytes⟩ := rfl
  rw [hset1]
  have hrev1 : (evictTail s.maxBytes k
      ((⟨k, img, off⟩ : CacheValue) :: (CacheImpl.removeKey s k).entries).reverse
      ((CacheImpl.removeKey s k).currentBytes + img.size) []).1.reverse
      = ⟨k, img, off⟩ :: l'.reverse := by
    rw [h1]; simp
  have hsuffix : l' <:+ (CacheImpl.removeKey s k).entries.reverse := ⟨pre, h2⟩
  have hl'keys : ∀ e ∈ l', e.key ≠ k := by
    intro e he
    exact hk1 e (List.mem_reverse.mp (hsuffix.subset he))
  have hpwl' : l'.reverse.Pairwise (fun a b => a.key ≠ b.key) := by
    apply pairwise_keys_reverse
    exact (pairwise_keys_reverse _ hpw1).sublist hsuffix.sublist
  refine ⟨⟨?_, ?_⟩, rfl, ?_, ?_, ?_⟩
  · show _ = sumSizes _
    rw [h3, hrev1, sumSizes_cons, sumSizes_append, sumSizes_reverse]
    simp [sumSizes]
    omega
  · show List.Pairwise _ _
    rw [hrev1]
    refine List.pairwise_cons.mpr ⟨?_, hpwl'⟩
    intro b hb
    exact fun hkb => (hl'keys b (List.mem_reverse.mp hb)) (hkb ▸ rfl)
  · show lruFind _ k = _
    rw [hrev1]
    simp [lruFind, List.find?_cons]
  · rcases h4 with h4 | h4
    · exact Or.inl h4
    · right
      show (evictTail _ _ _ _ _).1.reverse = _
      rw [hrev1, h4]
      simp
  · show ∀ v ∈ (evictTail _ _ _ _ _).1.reverse, _
    rw [hrev1]
    intro v hv hvk
    rcases List.mem_cons.mp hv with rfl | hv
    · rfl
    · exact absurd hvk (hl'keys v (List.mem_reverse.mp hv))

/-! ## Claim C2: the budget invariant of `CacheImpl::set` -/

/-- C2: after any cache `set(key, image, offset)` completes on a well-formed
state, either `currentBytes ≤ maxBytes` or the cache contains exactly the
just-inserted entry; the just-inserted entry is never evicted by its own
insertion (a lookup of its key finds it); and when the key was already
present the old entry is gone — no entry other than the new one carries the
key, and the byte accounting (currentBytes = sum of live sizes) reflects
only the new entry's bytes. -/
theorem cacheImpl_set_budget_invariant (s : CacheImplState) (k : CacheKey)
    (img : ImageV) (off : IPt) (h : CacheWF s) :
    ((CacheImpl.set s k img off).1.currentBytes ≤ (CacheImpl.set s k img off).1.maxBytes ∨
      (CacheImpl.set s k img off).1.entries = [⟨k, img, off⟩]) ∧
    lruFind (CacheImpl.set s k img off).1.entries k = some ⟨k, img, off⟩ ∧
    (∀ v ∈ (CacheImpl.set s k img off).1.entries, v.key = k → v = ⟨k, img, off⟩) ∧
    CacheWF (CacheImpl.set s k img off).1 := by
  obtain ⟨hwf, hmax, hfind, hbud, huniq⟩ := cacheSet_spec s k img off h
  rw [hmax]
  exact ⟨hbud, hfind, huniq, hwf⟩

/-- A well-formed one-entry state used to instantiate the C2 theorem. -/
def c2state : CacheImplState := ⟨[⟨simpleKey 1, simpleImage 1 200, ⟨0, 0⟩⟩], 200, 300⟩

theorem cacheImpl_set_budget_invariant_witness :
    CacheWF c2state ∧
    (((CacheImpl.set c2state (simpleKey 2) (simpleImage 2 250) ⟨0, 0⟩).1.currentBytes ≤
        (CacheImpl.set c2state (simpleKey 2) (simpleImage 2 250) ⟨0, 0⟩).1.maxBytes ∨
      (CacheImpl.set c2state (simpleKey 2) (simpleImage 2 250) ⟨0, 0⟩).1.entries
        = [⟨simpleKey 2, simpleImage 2 250, ⟨0, 0⟩⟩]) ∧
    lruFind (CacheImpl.set c2state (simpleKey 2) (simpleImage 2 250) ⟨0, 0⟩).1.entries
        (simpleKey 2) = some ⟨simpleKey 2, simpleImage 2 250, ⟨0, 0⟩⟩ ∧
    (∀ v ∈ (CacheImpl.set c2state (simpleKey 2) (simpleImage 2 250) ⟨0, 0⟩).1.entries,
        v.key = simpleKey 2 → v = ⟨simpleKey 2, simpleImage 2 250, ⟨0, 0⟩⟩) ∧
    CacheWF (CacheImpl.set c2state (simpleKey 2) (simpleImage 2 250) ⟨0, 0⟩).1) :=
  ⟨⟨by decide, by simp [c2state]⟩,
   cacheImpl_set_budget_invariant c2state (simpleKey 2) (simpleImage 2 250) ⟨0, 0⟩
     ⟨by decide, by simp [c2state]⟩⟩

/-! ## Claim C9: `purge` -/

theorem purgeTail_spec (l : List CacheValue) :
    ∀ (cur : Nat), cur = sumSizes l →
      (purgeTail l cur).2 = 0 ∧
      sumSizes (purgeTail l cur).1 = (purgeTail l cur).2 ∧
      (∀ v ∈ (purgeTail l cur).1, v ∈ l) := by
  induction l with
  | nil =>
      intro cur hsum
      rw [purgeTail]
      refine ⟨?_, ?_, ?_⟩
      · show cur = 0
        simpa [sumSizes] using hsum
      · show sumSizes [] = cur
        simpa [sumSizes] using hsum.symm
      · intro v hv; exact hv
  | cons t rest ih =>
      intro cur hsum
      by_cases hc : 0 < cur
      · have hstep : purgeTail (t :: rest) cur = purgeTail rest (cur - t.image.size) := by
          rw [purgeTail, if_pos hc]
        have hsum' : cur - t.image.size = sumSizes rest := by
          rw [hsum, sumSizes_cons]
          omega
        obtain ⟨ha, hb, hm⟩ := ih _ hsum'
        refine ⟨by rw [hstep]; exact ha, by rw [hstep]; exact hb, ?_⟩
        intro v hv
        rw [hstep] at hv
        exact List.mem_cons_of_mem t (hm v hv)
      · have hcur : cur = 0 := by omega
        have hstep : purgeTail (t :: rest) cur = (t :: rest, cur) := by
          rw [purgeTail, if_neg hc]
        refine ⟨by rw [hstep]; exact hcur, by rw [hstep]; exact hsum.symm, ?_⟩
        intro v hv
        rw [hstep] at hv
        exact hv

/-- C9 (amended): after `purge()` on a well-formed state, `currentBytes`
is 0 and every remaining entry declares size 0 — in particular, when every
live entry declares a nonzero size the cache is left empty.  (Entries of
declared size zero can survive: the loop runs only while
`fCurrentBytes > 0`.) -/
theorem cacheImpl_purge_spec (s : CacheImplState) (h : CacheWF s) :
    (CacheImpl.purge s).currentBytes = 0 ∧
    (∀ v ∈ (CacheImpl.purge s).entries, v.image.size = 0) ∧
    ((∀ v ∈ s.entries, v.image.size ≠ 0) → (CacheImpl.purge s).entries = []) := by
  obtain ⟨hsum, -⟩ := h
  have hs : s.currentBytes = sumSizes s.entries.reverse := by
    rw [sumSizes_reverse]; exact hsum
  obtain ⟨ha, hb, hm⟩ := purgeTail_spec s.entries.reverse s.currentBytes hs
  have hcur : (CacheImpl.purge s).currentBytes
      = (purgeTail s.entries.reverse s.currentBytes).2 := rfl
  have hent : (CacheImpl.purge s).entries
      = (purgeTail s.entries.reverse s.currentBytes).1.reverse := rfl
  have hzero : ∀ v ∈ (purgeTail s.entries.reverse s.currentBytes).1, v.image.size = 0 := by
    intro v hv
    have : sumSizes (purgeTail s.entries.reverse s.currentBytes).1 = 0 := by rw [hb, ha]
    have := List.sum_eq_zero_iff.mp (by simpa [sumSizes] using this)
    exact this _ (List.mem_map_of_mem _ hv)
  refine ⟨by rw [hcur, ha], ?_, ?_⟩
  · intro v hv
    rw [hent] at hv
    exact hzero v (List.mem_reverse.mp hv)
  · intro hnz
    rw [hent]
    rw [List.eq_nil_iff_forall_not_mem]
    intro v hv
    have hvmem : v ∈ s.entries :=
      List.mem_reverse.mp (hm v (List.mem_reverse.mp hv))
    exact hnz v hvmem (hzero v (List.mem_reverse.mp hv))

theorem cacheImpl_purge_spec_witness :
    CacheWF c2state ∧
    ((CacheImpl.purge c2state).currentBytes = 0 ∧
     (∀ v ∈ (CacheImpl.purge c2state).entries, v.image.size = 0) ∧
     ((∀ v ∈ c2state.entries, v.image.size ≠ 0) → (CacheImpl.purge c2state).entries = [])) :=
  ⟨⟨by decide, by simp [c2state]⟩, cacheImpl_purge_spec c2state ⟨by decide, by simp [c2state]⟩⟩

/-- C9 (counterexample to the claim as stated): a well-formed cache holding
one entry of declared size zero; `purge()` leaves the state unchanged, so
the cache still contains an entry afterwards. -/
theorem purge_keeps_zero_size_entry :
    CacheWF zeroSizeState ∧
    CacheImpl.purge zeroSizeState = zeroSizeState ∧
    (CacheImpl.purge zeroSizeState).entries ≠ [] := by
  refine ⟨⟨by decide, by simp [zeroSizeState]⟩, by decide, by decide⟩

/-! ## Claim C4: the LRU eviction-order scenario -/

/-- C4: with `maxBytes = 300`, after inserting K1, K2, K3 of 100 bytes each,
touching K1 with `get`, and inserting K4 of 100 bytes, K2 has been evicted
while K1, K3, K4 are present, the LRU order being K4, K1, K3 (most recent
first) at exactly 300 bytes. -/
theorem cache_lru_eviction_scenario :
    let c0 : CacheImplState := ⟨[], 0, 300⟩
    let c1 := (CacheImpl.set c0 (simpleKey 1) (simpleImage 1 100) ⟨0, 0⟩).1
    let c2 := (CacheImpl.set c1 (simpleKey 2) (simpleImage 2 100) ⟨0, 0⟩).1
    let c3 := (CacheImpl.set c2 (simpleKey 3) (simpleImage 3 100) ⟨0, 0⟩).1
    let c4 := (CacheImpl.get c3 (simpleKey 1)).2
    let c5 := (CacheImpl.set c4 (simpleKey 4) (simpleImage 4 100) ⟨0, 0⟩).1
    lruFind c5.entries (simpleKey 2) = none ∧
    (lruFind c5.entries (simpleKey 1)).isSome = true ∧
    (lruFind c5.entries (simpleKey 3)).isSome = true ∧
    (lruFind c5.entries (simpleKey 4)).isSome = true ∧
    c5.entries.map (fun v => v.key.uniqueId) = [4, 1, 3] ∧
    c5.currentBytes = 300 := by
  decide

/-! ## Claim C3: memoization of `filterImage` -/

/-- C3 (counterexample to the claim as stated): when the node's computation
returns a null result, nothing is cached (failure is not cached), so calling
`filterImage` twice with the same fingerprint and a non-null cache invokes
`onFilterImage` twice, not once. -/
theorem filterImage_null_result_recomputes :
    (SkImageFilter.filterImage nullNode someSrc someCtx (some emptyCache) []).computeCalls +
      (SkImageFilter.filterImage nullNode someSrc someCtx
        (SkImageFilter.filterImage nullNode someSrc someCtx (some emptyCache) []).cache
        (SkImageFilter.filterImage nullNode someSrc someCtx (some emptyCache) []).recorded).computeCalls
      = 2 ∧
    (SkImageFilter.filterImage nullNode someSrc someCtx (some emptyCache) []).result = none := by
  decide

/-- C3 (amended): with a non-null cache, a fingerprint not yet cached and a
node whose computation returns a non-null result, two `filterImage` calls
with the same fingerprint invoke `onFilterImage` exactly once — the first
call computes and stores, the second returns the cached image and offset. -/
theorem filterImage_memoizes_on_success (n : FilterNode) (src : ImageV) (ctx : FilterCtx)
    (c : CacheImplState) (rec : List CacheKey) (img : ImageV) (off : IPt)
    (hwf : CacheWF c)
    (hmiss : lruFind c.entries (mkCacheKey n src ctx) = none)
    (hres : n.onFilterImage src ctx.ctm ctx.clipBounds = some (img, off)) :
    (SkImageFilter.filterImage n src ctx (some c) rec).computeCalls = 1 ∧
    (SkImageFilter.filterImage n src ctx
        (SkImageFilter.filterImage n src ctx (some c) rec).cache
        (SkImageFilter.filterImage n src ctx (some c) rec).recorded).computeCalls = 0 ∧
    (SkImageFilter.filterImage n src ctx (some c) rec).result = some (img, off) ∧
    (SkImageFilter.filterImage n src ctx
        (SkImageFilter.filterImage n src ctx (some c) rec).cache
        (SkImageFilter.filterImage n src ctx (some c) rec).recorded).result = some (img, off) := by
  have hget1 : CacheImpl.get c (mkCacheKey n src ctx) = (none, c) := by
    unfold CacheImpl.get
    rw [hmiss]
  have hr1 : SkImageFilter.filterImage n src ctx (some c) rec
      = ⟨some (img, off),
         some (CacheImpl.set c (mkCacheKey n src ctx) img off).1,
         rec ++ [mkCacheKey n src ctx], 1,
         (CacheImpl.set c (mkCacheKey n src ctx) img off).2⟩ := by
    simp only [SkImageFilter.filterImage, hget1, hres]
  obtain ⟨-, -, hfind2, -, -⟩ := cacheSet_spec c (mkCacheKey n src ctx) img off hwf
  rw [hr1]
  refine ⟨rfl, ?_, rfl, ?_⟩ <;>
    simp only [SkImageFilter.filterImage, CacheImpl.get, hfind2]

theorem filterImage_memoizes_on_success_witness :
    CacheWF emptyCache ∧
    lruFind emptyCache.entries (mkCacheKey okNode someSrc someCtx) = none ∧
    okNode.onFilterImage someSrc someCtx.ctm someCtx.clipBounds = some (someSrc, ⟨1, 2⟩) ∧
    ((SkImageFilter.filterImage okNode someSrc someCtx (some emptyCache) []).computeCalls = 1 ∧
     (SkImageFilter.filterImage okNode someSrc someCtx
         (SkImageFilter.filterImage okNode someSrc someCtx (some emptyCache) []).cache
         (SkImageFilter.filterImage okNode someSrc someCtx (some emptyCache) []).recorded).computeCalls = 0 ∧
     (SkImageFilter.filterImage okNode someSrc someCtx (some emptyCache) []).result
        = some (someSrc, ⟨1, 2⟩) ∧
     (SkImageFilter.filterImage okNode someSrc someCtx
         (SkImageFilter.filterImage okNode someSrc someCtx (some emptyCache) []).cache
         (SkImageFilter.filterImage okNode someSrc someCtx (some emptyCache) []).recorded).result
        = some (someSrc, ⟨1, 2⟩)) :=
  ⟨⟨rfl, List.Pairwise.nil⟩, rfl, rfl,
   filterImage_memoizes_on_success okNode someSrc someCtx emptyCache [] someSrc ⟨1, 2⟩
     ⟨rfl, List.Pairwise.nil⟩ rfl rfl⟩

/-! ## Claim C8: node cache-key bookkeeping -/

theorem insertedKeys_cons (w : World) (e : WEvent) (es : List WEvent) (i : Nat) :
    insertedKeys w (e :: es) i = insertedKeys w [e] i ++ insertedKeys (stepWorld w e) es i := by
  simp only [insertedKeys]
  simp

/-- The recorded-key delta of one `filterImage` call matches the
`insertedKeys` accounting of the corresponding single-event trace. -/
theorem filterImage_recorded_delta (w : World) (e : WEvent) (wne : WNode)
    (hn : w.nodes[e.nodeIdx]? = some wne) :
    (SkImageFilter.filterImage wne.node e.src e.ctx w.cache wne.recorded).recorded
      = wne.recorded ++ insertedKeys w [e] e.nodeIdx := by
  simp only [insertedKeys, hn, if_pos rfl, List.append_nil]
  cases hc : w.cache with
  | none => simp [SkImageFilter.filterImage]
  | some c =>
      cases hf : lruFind c.entries (mkCacheKey wne.node e.src e.ctx) with
      | some v => simp [SkImageFilter.filterImage, CacheImpl.get, hf]
      | none =>
          cases hr : wne.node.onFilterImage e.src e.ctx.ctm e.ctx.clipBounds with
          | some io =>
              cases io with
              | mk img off => simp [SkImageFilter.filterImage, CacheImpl.get, hf, hr]
          | none => simp [SkImageFilter.filterImage, CacheImpl.get, hf, hr]

/-- C8 (amended): a node's recorded cache keys are exactly the keys it has
caused to be inserted along the trace — capacity eviction does **not**
remove a key from the node's recorded list (the cache holds no back
references to nodes). -/
theorem node_recorded_keys_eq_inserted (es : List WEvent) :
    ∀ (w : World) (i : Nat) (wn : WNode), w.nodes[i]? = some wn →
      ∃ wn', (runWorld w es).nodes[i]? = some wn' ∧ wn'.node = wn.node ∧
             wn'.recorded = wn.recorded ++ insertedKeys w es i := by
  induction es with
  | nil =>
      intro w i wn h
      exact ⟨wn, h, rfl, by simp [insertedKeys]⟩
  | cons e es ih =>
      intro w i wn h
      have hrun : runWorld w (e :: es) = runWorld (stepWorld w e) es := rfl
      cases hn : w.nodes[e.nodeIdx]? with
      | none =>
          have hstep : stepWorld w e = w := by
            unfold stepWorld
            rw [hn]
          have hins : insertedKeys w (e :: es) i = insertedKeys (stepWorld w e) es i := by
            rw [insertedKeys_cons]
            have : insertedKeys w [e] i = [] := by
              simp [insertedKeys, hn]
            rw [this, List.nil_append]
          rw [hrun, hins, hstep]
          rw [hstep] at *
          exact ih w i wn h
      | some wne =>
          have hstepn : (stepWorld w e).nodes
              = w.nodes.set e.nodeIdx
                  ⟨wne.node,
                   (SkImageFilter.filterImage wne.node e.src e.ctx w.cache wne.recorded).recorded⟩ := by
            unfold stepWorld
            rw [hn]
          by_cases hei : e.nodeIdx = i
          · subst hei
            have hwn : wne = wn := by
              rw [hn] at h
              exact Option.some.inj h
            subst hwn
            have hlt : e.nodeIdx < w.nodes.length := (List.getElem?_eq_some.mp hn).1
            have hget : (stepWorld w e).nodes[e.nodeIdx]?
                = some ⟨wne.node,
                    (SkImageFilter.filterImage wne.node e.src e.ctx w.cache wne.recorded).recorded⟩ := by
              rw [hstepn]
              simp [List.getElem?_set_self', hlt]
            obtain ⟨wn', h1, h2, h3⟩ := ih (stepWorld w e) e.nodeIdx _ hget
            refine ⟨wn', by rw [hrun]; exact h1, h2, ?_⟩
            rw [hrun] at *
            rw [h3, insertedKeys_cons]
            rw [filterImage_recorded_delta w e wne hn]
            simp
          · have hget : (stepWorld w e).nodes[i]? = w.nodes[i]? := by
              rw [hstepn]
              rw [List.getElem?_set_ne hei]
            have hins : insertedKeys w (e :: es) i = insertedKeys (stepWorld w e) es i := by
              rw [insertedKeys_cons]
              have : insertedKeys w [e] i = [] := by
                simp [insertedKeys, hn, hei]
              rw [this, List.nil_append]
            obtain ⟨wn', h1, h2, h3⟩ := ih (stepWorld w e) i wn (by rw [hget]; exact h)
            exact ⟨wn', by rw [hrun]; exact h1, h2, by rw [hins]; exact h3⟩

theorem node_recorded_keys_eq_inserted_witness :
    worldAB.nodes[0]? = some ⟨nodeA, []⟩ ∧
    (∃ wn', (runWorld worldAB eventsAB).nodes[0]? = some wn' ∧ wn'.node = nodeA ∧
            wn'.recorded = [] ++ insertedKeys worldAB eventsAB 0) :=
  ⟨rfl, node_recorded_keys_eq_inserted eventsAB worldAB 0 ⟨nodeA, []⟩ rfl⟩

/-- C8 (counterexample to the claim as stated): node A inserts its key, a
later insertion by node B evicts that entry by capacity, yet node A's
recorded key list still contains the key — it is not "inserted minus
evicted". -/
theorem node_keys_not_pruned_on_eviction :
    claimKeys worldAB eventsAB 0 = [] ∧
    ((runWorld worldAB eventsAB).nodes[0]?.map WNode.recorded)
      = some [mkCacheKey nodeA someSrc someCtx] ∧
    mkCacheKey nodeA someSrc someCtx ∈ (runWorld worldAB eventsAB).evictedLog.map CacheValue.key := by
  decide

/-! ## Claim C5: `CropRect::applyTo` decomposition -/

/-- C5: `applyTo` with no flags returns the input bounds unchanged; with all
four flags it returns the CTM-transformed crop rounded outward; with only
`hasWidth` it preserves the input's left, top (and bottom) and sets
`right = left + width(transformed crop)`; with `hasLeft | hasWidth` the
width override reads the overridden left. -/
theorem cropRect_applyTo_decomposition (bounds : IRectI) (ctm : MatrixQ) (r : RectQ) :
    CropRect.applyTo ⟨r, 0⟩ bounds ctm = bounds ∧
    CropRect.applyTo ⟨r, 15⟩ bounds ctm = (ctm.mapRect r).roundOut ∧
    ((CropRect.applyTo ⟨r, 4⟩ bounds ctm).left = bounds.left ∧
     (CropRect.applyTo ⟨r, 4⟩ bounds ctm).top = bounds.top ∧
     (CropRect.applyTo ⟨r, 4⟩ bounds ctm).bottom = bounds.bottom ∧
     (CropRect.applyTo ⟨r, 4⟩ bounds ctm).right
       = bounds.left + ((ctm.mapRect r).roundOut).width) ∧
    ((CropRect.applyTo ⟨r, 5⟩ bounds ctm).left = ((ctm.mapRect r).roundOut).left ∧
     (CropRect.applyTo ⟨r, 5⟩ bounds ctm).right
       = ((ctm.mapRect r).roundOut).left + ((ctm.mapRect r).roundOut).width) := by
  have m15a : (15 : Nat) &&& 1 = 1 := by decide
  have m15b : (15 : Nat) &&& 2 = 2 := by decide
  have m15c : (15 : Nat) &&& 4 = 4 := by decide
  have m15d : (15 : Nat) &&& 8 = 8 := by decide
  have m4a : (4 : Nat) &&& 1 = 0 := by decide
  have m4b : (4 : Nat) &&& 2 = 0 := by decide
  have m4c : (4 : Nat) &&& 4 = 4 := by decide
  have m4d : (4 : Nat) &&& 8 = 0 := by decide
  have m5a : (5 : Nat) &&& 1 = 1 := by decide
  have m5b : (5 : Nat) &&& 2 = 0 := by decide
  have m5c : (5 : Nat) &&& 4 = 4 := by decide
  have m5d : (5 : Nat) &&& 8 = 0 := by decide
  refine ⟨rfl, ?_, ?_, ?_⟩
  · ext <;>
      simp [CropRect.applyTo, IRectI.width, IRectI.height, m15a, m15b, m15c, m15d] <;>
      omega
  · refine ⟨?_, ?_, ?_, ?_⟩ <;>
      simp [CropRect.applyTo, IRectI.width, m4a, m4b, m4c, m4d]
  · refine ⟨?_, ?_⟩ <;>
      simp [CropRect.applyTo, IRectI.width, m5a, m5b, m5c, m5d]

/-! ## Claim C6: the analytic combineVertical tolerances -/

/-- C6 (counterexample to the claim as stated): with the same winding and
the new edge's `fLowerY` within 0x100 of (but not equal to) the previous
edge's `fUpperY`, the source returns `kNo_Combine` — that comparison is
exact — while the claim's uniform-tolerance reading would fuse them. -/
theorem analytic_combineVertical_exact_upper_test :
    SkAnalyticEdgeBuilder.combineVertical aEdgeNew aEdgePrev = (Combine.noCombine, aEdgePrev) ∧
    combineVerticalUniformTol aEdgeNew aEdgePrev
      = (Combine.partCombine, { aEdgePrev with upperY := 0, y := 0 }) ∧
    approximatelyEqual aEdgeNew.lowerY aEdgePrev.upperY = true ∧
    aEdgeNew.lowerY ≠ aEdgePrev.upperY ∧
    aEdgeNew.winding = aEdgePrev.winding := by
  decide

/-- C6 (amended): the analytic `combineVertical` treats Y endpoints as equal
under the `|a - b| < 0x100` tolerance in the second same-winding adjacency
test and in all opposite-winding cancellation tests, but the same-winding
test of the new edge's `fLowerY` against the previous edge's `fUpperY` is
exact equality. -/
theorem analytic_combineVertical_tolerance_characterization :
    ∀ e l, SkAnalyticEdgeBuilder.combineVertical e l = combineVerticalAmendedSpec e l :=
  fun _ _ => rfl

/-! ## Claim C10: the `buildPoly` overflow guard -/

/-- C10: when a clip is present and `countPoints * kMaxClippedLineSegments`
overflows the 64-bit `size_t`, `buildPoly` returns 0 without allocating edge
storage and without appending any edges. -/
theorem buildPoly_overflow_returns_zero (shift : Nat) (cs : List (List Seg)) (ic : IRectI)
    (cull : Bool)
    (h : 2 ^ 64 ≤ countPoints cs * SkLineClipper.kMaxClippedLineSegments) :
    SkEdgeBuilder.buildPoly shift cs (some ic) cull = ⟨0, none, []⟩ := by
  rw [SkEdgeBuilder.buildPoly, if_pos h]

theorem buildPoly_overflow_returns_zero_witness :
    2 ^ 64 ≤ countPoints [List.replicate (2 ^ 63) (Seg.line ⟨0, 0⟩ ⟨0, 0⟩)] *
        SkLineClipper.kMaxClippedLineSegments ∧
    SkEdgeBuilder.buildPoly 0 [List.replicate (2 ^ 63) (Seg.line ⟨0, 0⟩ ⟨0, 0⟩)]
        (some ⟨0, 0, 8, 8⟩) true = ⟨0, none, []⟩ := by
  have h : 2 ^ 64 ≤ countPoints [List.replicate (2 ^ 63) (Seg.line (⟨0, 0⟩ : PtQ) ⟨0, 0⟩)] *
      SkLineClipper.kMaxClippedLineSegments := by
    rw [countPoints, List.map_cons, List.map_nil, List.length_replicate, List.sum_cons,
      List.sum_nil, SkLineClipper.kMaxClippedLineSegments]
    norm_num
  exact ⟨h, buildPoly_overflow_returns_zero 0 _ _ true h⟩

/-! ## Claim C7: the finiteness gate of the clipped build -/

theorem drainAll_false (shift : Nat) (ds : List DrainSeg) :
    ∀ (es : List SkEdgeRec), (drainAll shift ds (es, false)).2 = false := by
  induction ds with
  | nil => intro es; rfl
  | cons d rest ih =>
      intro es
      by_cases hf : d.finite = true
      · cases d <;> simp only [drainAll, hf, if_true] <;> exact ih _
      · cases d <;> simp only [drainAll, hf, if_false, Bool.false_eq_true] <;> rfl

theorem drainAll_nonfinite (shift : Nat) (ds : List DrainSeg)
    (h : ds.any (fun d => ! d.finite) = true) :
    ∀ (es : List SkEdgeRec) (fin : Bool), (drainAll shift ds (es, fin)).2 = false := by
  induction ds with
  | nil => simp at h
  | cons d rest ih =>
      intro es fin
      by_cases hf : d.finite = true
      · have h' : rest.any (fun d => ! d.finite) = true := by
          simpa [hf] using h
        cases d <;> simp only [drainAll, hf, if_true] <;> exact ih h' _ _
      · cases d <;> simp only [drainAll, hf, if_false, Bool.false_eq_true] <;> rfl

theorem foldQuads_false (co : ClipOracle) (shift : Nat) (clipR : RectQ) (qs : List QuadQ) :
    ∀ es2 : List SkEdgeRec,
      (qs.foldl (fun st2 qq =>
        match co.clipQuad qq clipR with
        | some ds => drainAll shift ds st2
        | none => st2) (es2, false)).2 = false := by
  induction qs with
  | nil => intro es2; rfl
  | cons qq rest ih =>
      intro es2
      cases hq : co.clipQuad qq clipR with
      | none => simp only [List.foldl_cons, hq]; exact ih es2
      | some ds =>
          simp only [List.foldl_cons, hq]
          have hfl : drainAll shift ds (es2, false)
              = ((drainAll shift ds (es2, false)).1, false) :=
            Prod.ext_iff.mpr ⟨rfl, drainAll_false shift ds es2⟩
          rw [hfl]
          exact ih (drainAll shift ds (es2, false)).1

theorem clipStep_preserves_false (co : ClipOracle) (fns : CurveOracles) (shift : Nat)
    (clipR : RectQ) (es : List SkEdgeRec) (s : Seg) :
    (clipStep co fns shift clipR (es, false) s).2 = false := by
  cases s with
  | line p0 p1 =>
      simp only [clipStep]
      cases co.clipLine p0 p1 clipR with
      | none => rfl
      | some ds => exact drainAll_false shift ds es
  | quad q =>
      simp only [clipStep]
      cases co.clipQuad q clipR with
      | none => rfl
      | some ds => exact drainAll_false shift ds es
  | cubic c =>
      simp only [clipStep]
      cases co.clipCubic c clipR with
      | none => rfl
      | some ds => exact drainAll_false shift ds es
  | conic k =>
      simp only [clipStep]
      exact foldQuads_false co shift clipR _ es

theorem foldQuads_nonfinite (co : ClipOracle) (shift : Nat) (clipR : RectQ) (qs : List QuadQ)
    (h : qs.any (fun qq =>
          match co.clipQuad qq clipR with
          | some ds => ds.any (fun d => ! d.finite)
          | none => false) = true) :
    ∀ (es : List SkEdgeRec) (fin : Bool),
      (qs.foldl (fun st2 qq =>
        match co.clipQuad qq clipR with
        | some ds => drainAll shift ds st2
        | none => st2) (es, fin)).2 = false := by
  induction qs with
  | nil => simp at h
  | cons qq rest ih =>
      intro es fin
      cases hq : co.clipQuad qq clipR with
      | none =>
          rw [List.any_cons, hq] at h
          simp only [Bool.false_or] at h
          simp only [List.foldl_cons, hq]
          exact ih h es fin
      | some ds =>
          by_cases hds : ds.any (fun d => ! d.finite) = true
          · simp only [List.foldl_cons, hq]
            have hfl : drainAll shift ds (es, fin)
                = ((drainAll shift ds (es, fin)).1, false) :=
              Prod.ext_iff.mpr ⟨rfl, drainAll_nonfinite shift ds hds es fin⟩
            rw [hfl]
            exact foldQuads_false co shift clipR rest (drainAll shift ds (es, fin)).1
          · rw [List.any_cons, hq] at h
            simp only [hds, Bool.false_or] at h
            simp only [List.foldl_cons, hq]
            exact ih h (drainAll shift ds (es, fin)).1 (drainAll shift ds (es, fin)).2

theorem clipStep_nonfinite (co : ClipOracle) (fns : CurveOracles) (shift : Nat)
    (clipR : RectQ) (s : Seg)
    (h : segDrainNonFinite co fns clipR s = true) :
    ∀ (es : List SkEdgeRec) (fin : Bool),
      (clipStep co fns shift clipR (es, fin) s).2 = false := by
  cases s with
  | line p0 p1 =>
      intro es fin
      simp only [segDrainNonFinite] at h
      cases hc : co.clipLine p0 p1 clipR with
      | none => rw [hc] at h; simp at h
      | some ds =>
          rw [hc] at h
          simp only [clipStep, hc]
          exact drainAll_nonfinite shift ds h es fin
  | quad q =>
      intro es fin
      simp only [segDrainNonFinite] at h
      cases hc : co.clipQuad q clipR with
      | none => rw [hc] at h; simp at h
      | some ds =>
          rw [hc] at h
          simp only [clipStep, hc]
          exact drainAll_nonfinite shift ds h es fin
  | cubic c =>
      intro es fin
      simp only [segDrainNonFinite] at h
      cases hc : co.clipCubic c clipR with
      | none => rw [hc] at h; simp at h
      | some ds =>
          rw [hc] at h
          simp only [clipStep, hc]
          exact drainAll_nonfinite shift ds h es fin
  | conic k =>
      intro es fin
      simp only [segDrainNonFinite] at h
      simp only [clipStep]
      exact foldQuads_nonfinite co shift clipR _ h es fin

theorem foldSegs_false (co : ClipOracle) (fns : CurveOracles) (shift : Nat)
    (clipR : RectQ) (c : List Seg) :
    ∀ es : List SkEdgeRec,
      (c.foldl (clipStep co fns shift clipR) (es, false)).2 = false := by
  induction c with
  | nil => intro es; rfl
  | cons s rest ih =>
      intro es
      simp only [List.foldl_cons]
      have hfl : clipStep co fns shift clipR (es, false) s
          = ((clipStep co fns shift clipR (es, false) s).1, false) :=
        Prod.ext_iff.mpr ⟨rfl, clipStep_preserves_false co fns shift clipR es s⟩
      rw [hfl]
      exact ih (clipStep co fns shift clipR (es, false) s).1

theorem foldSegs_nonfinite (co : ClipOracle) (fns : CurveOracles) (shift : Nat)
    (clipR : RectQ) (c : List Seg)
    (h : c.any (segDrainNonFinite co fns clipR) = true) :
    ∀ (es : List SkEdgeRec) (fin : Bool),
      (c.foldl (clipStep co fns shift clipR) (es, fin)).2 = false := by
  induction c with
  | nil => simp at h
  | cons s rest ih =>
      intro es fin
      simp only [List.foldl_cons]
      by_cases hs : segDrainNonFinite co fns clipR s = true
      · have hfl : clipStep co fns shift clipR (es, fin) s
            = ((clipStep co fns shift clipR (es, fin) s).1, false) :=
          Prod.ext_iff.mpr ⟨rfl, clipStep_nonfinite co fns shift clipR s hs es fin⟩
        rw [hfl]
        exact foldSegs_false co fns shift clipR rest _
      · rw [List.any_cons] at h
        simp only [hs, Bool.false_or] at h
        exact ih h (clipStep co fns shift clipR (es, fin) s).1
          (clipStep co fns shift clipR (es, fin) s).2

theorem foldContours_false (co : ClipOracle) (fns : CurveOracles) (shift : Nat)
    (clipR : RectQ) (cs : List (List Seg)) :
    ∀ es : List SkEdgeRec,
      (cs.foldl (fun st2 c => c.foldl (clipStep co fns shift clipR) st2) (es, false)).2
        = false := by
  induction cs with
  | nil => intro es; rfl
  | cons c rest ih =>
      intro es
      simp only [List.foldl_cons]
      have hfl : c.foldl (clipStep co fns shift clipR) (es, false)
          = ((c.foldl (clipStep co fns shift clipR) (es, false)).1, false) :=
        Prod.ext_iff.mpr ⟨rfl, foldSegs_false co fns shift clipR c es⟩
      rw [hfl]
      exact ih _

theorem foldContours_nonfinite (co : ClipOracle) (fns : CurveOracles) (shift : Nat)
    (clipR : RectQ) (cs : List (List Seg))
    (h : cs.any (fun c => c.any (segDrainNonFinite co fns clipR)) = true) :
    ∀ (es : List SkEdgeRec) (fin : Bool),
      (cs.foldl (fun st2 c => c.foldl (clipStep co fns shift clipR) st2) (es, fin)).2
        = false := by
  induction cs with
  | nil => simp at h
  | cons c rest ih =>
      intro es fin
      simp only [List.foldl_cons]
      by_cases hc : c.any (segDrainNonFinite co fns clipR) = true
      · have hfl : c.foldl (clipStep co fns shift clipR) (es, fin)
            = ((c.foldl (clipStep co fns shift clipR) (es, fin)).1, false) :=
          Prod.ext_iff.mpr ⟨rfl, foldSegs_nonfinite co fns shift clipR c hc es fin⟩
        rw [hfl]
        exact foldContours_false co fns shift clipR rest _
      · rw [List.any_cons] at h
        simp only [hc, Bool.false_or] at h
        exact ih h (c.foldl (clipStep co fns shift clipR) (es, fin)).1
          (c.foldl (clipStep co fns shift clipR) (es, fin)).2

/-- C7: for any path built through the general (non-polyline) path with a
clip, if any drained segment has a non-finite coordinate, the final edge
count is 0. -/
theorem buildClipped_nonfinite_returns_zero (co : ClipOracle) (fns : CurveOracles)
    (shift : Nat) (ic : IRectI) (cs : List (List Seg))
    (h : anyNonFiniteDrain co fns shift ic cs = true) :
    SkEdgeBuilder.buildClipped co fns shift ic cs = 0 := by
  rw [anyNonFiniteDrain] at h
  have hst := foldContours_nonfinite co fns shift
    (SkBasicEdgeBuilder.recoverClip shift ic) cs h [] true
  simp only [SkEdgeBuilder.buildClipped]
  rw [hst]
  rfl

theorem buildClipped_nonfinite_returns_zero_witness :
    anyNonFiniteDrain nanClipOracle idCurveOracles 0 ⟨0, 0, 8, 8⟩
      [[Seg.line ⟨0, 0⟩ ⟨1, 1⟩]] = true ∧
    SkEdgeBuilder.buildClipped nanClipOracle idCurveOracles 0 ⟨0, 0, 8, 8⟩
      [[Seg.line ⟨0, 0⟩ ⟨1, 1⟩]] = 0 :=
  ⟨by decide,
   buildClipped_nonfinite_returns_zero nanClipOracle idCurveOracles 0 ⟨0, 0, 8, 8⟩
     [[Seg.line ⟨0, 0⟩ ⟨1, 1⟩]] (by decide)⟩

/-! ## Claim C1: scanline-content conservation of the edge builder -/

theorem fdot6Round_mono {a b : Int} (h : a ≤ b) : fdot6Round a ≤ fdot6Round b :=
  Int.ediv_le_ediv (by norm_num) (by omega)

theorem sumDelta_nil : sumDelta [] = 0 := rfl

theorem sumDelta_cons (e : SkEdgeRec) (l : List SkEdgeRec) :
    sumDelta (e :: l) = edgeDelta e + sumDelta l := by
  simp [sumDelta]

theorem mkLineEdge_eq_none_iff (X0 Y0 X1 Y1 w : Int) :
    mkLineEdge X0 Y0 X1 Y1 w = none ↔ fdot6Round Y0 = fdot6Round Y1 := by
  rw [mkLineEdge]
  split
  · simpa using ‹fdot6Round Y0 = fdot6Round Y1›
  · simpa using ‹¬ fdot6Round Y0 = fdot6Round Y1›

theorem mkLineEdge_some_spec (X0 Y0 X1 Y1 w : Int) (e : SkEdgeRec)
    (h : mkLineEdge X0 Y0 X1 Y1 w = some e) :
    e.winding = w ∧ e.firstY = fdot6Round Y0 ∧ e.lastY = fdot6Round Y1 - 1 ∧
    fdot6Round Y0 ≠ fdot6Round Y1 := by
  rw [mkLineEdge] at h
  split at h
  · cases h
  · cases h
    exact ⟨rfl, rfl, rfl, ‹¬ fdot6Round Y0 = fdot6Round Y1›⟩

/-- Accepted line edges carry the segment's signed band crossing; rejected
ones cross no band boundary. -/
theorem setLine_delta (shift : Nat) (p0 p1 : PtQ) :
    (SkEdge.setLine shift p0 p1 = none → bandOf shift p1.y = bandOf shift p0.y) ∧
    (∀ e, SkEdge.setLine shift p0 p1 = some e →
      GoodEdge e ∧ edgeDelta e = bandOf shift p1.y - bandOf shift p0.y) := by
  rw [SkEdge.setLine]
  by_cases hgt : toFDot6 shift p0.y > toFDot6 shift p1.y
  · rw [if_pos hgt]
    have hle : toFDot6 shift p1.y ≤ toFDot6 shift p0.y := le_of_lt hgt
    have hmono := fdot6Round_mono hle
    constructor
    · intro hn
      have := (mkLineEdge_eq_none_iff _ _ _ _ _).mp hn
      show fdot6Round (toFDot6 shift p1.y) = fdot6Round (toFDot6 shift p0.y)
      omega
    · intro e he
      obtain ⟨hw, hf, hl, hne⟩ := mkLineEdge_some_spec _ _ _ _ _ e he
      refine ⟨⟨Or.inr hw, ?_⟩, ?_⟩
      · show e.firstY ≤ e.lastY
        omega
      · show e.winding * (e.lastY - e.firstY + 1)
            = fdot6Round (toFDot6 shift p1.y) - fdot6Round (toFDot6 shift p0.y)
        rw [hw, hf, hl]
        ring_nf
  · rw [if_neg hgt]
    have hle : toFDot6 shift p0.y ≤ toFDot6 shift p1.y := by omega
    have hmono := fdot6Round_mono hle
    constructor
    · intro hn
      have := (mkLineEdge_eq_none_iff _ _ _ _ _).mp hn
      show fdot6Round (toFDot6 shift p1.y) = fdot6Round (toFDot6 shift p0.y)
      omega
    · intro e he
      obtain ⟨hw, hf, hl, hne⟩ := mkLineEdge_some_spec _ _ _ _ _ e he
      refine ⟨⟨Or.inl hw, ?_⟩, ?_⟩
      · show e.firstY ≤ e.lastY
        omega
      · show e.winding * (e.lastY - e.firstY + 1)
            = fdot6Round (toFDot6 shift p1.y) - fdot6Round (toFDot6 shift p0.y)
        rw [hw, hf, hl]
        ring_nf

/-- Accepted curve edges carry the signed band crossing of their monotone
piece's endpoints; rejected ones cross no band boundary. -/
theorem curveSet_delta (shift : Nat) (pA pB : PtQ) :
    (curveSet shift pA pB = none → bandOf shift pB.y = bandOf shift pA.y) ∧
    (∀ e, curveSet shift pA pB = some e →
      GoodEdge e ∧ edgeDelta e = bandOf shift pB.y - bandOf shift pA.y) := by
  rw [curveSet]
  have hminle0 : min (toFDot6 shift pA.y) (toFDot6 shift pB.y) ≤ toFDot6 shift pA.y :=
    min_le_left _ _
  have hminle1 : min (toFDot6 shift pA.y) (toFDot6 shift pB.y) ≤ toFDot6 shift pB.y :=
    min_le_right _ _
  have hlemax0 : toFDot6 shift pA.y ≤ max (toFDot6 shift pA.y) (toFDot6 shift pB.y) :=
    le_max_left _ _
  have hlemax1 : toFDot6 shift pB.y ≤ max (toFDot6 shift pA.y) (toFDot6 shift pB.y) :=
    le_max_right _ _
  split
  · rename_i htb
    have h0a := fdot6Round_mono hminle0
    have h0b := fdot6Round_mono hlemax0
    have h1a := fdot6Round_mono hminle1
    have h1b := fdot6Round_mono hlemax1
    constructor
    · intro _
      show fdot6Round (toFDot6 shift pB.y) = fdot6Round (toFDot6 shift pA.y)
      omega
    · intro e he
      cases he
  · rename_i htb
    constructor
    · intro hn
      cases hn
    · intro e he
      cases he
      by_cases hgt : toFDot6 shift pA.y > toFDot6 shift pB.y
      · have hmin : min (toFDot6 shift pA.y) (toFDot6 shift pB.y) = toFDot6 shift pB.y :=
          min_eq_right (le_of_lt hgt)
        have hmax : max (toFDot6 shift pA.y) (toFDot6 shift pB.y) = toFDot6 shift pA.y :=
          max_eq_left (le_of_lt hgt)
        rw [hmin, hmax] at htb ⊢
        have hmono := fdot6Round_mono (le_of_lt hgt)
        rw [if_pos hgt]
        refine ⟨⟨Or.inr rfl, ?_⟩, ?_⟩
        · show fdot6Round (toFDot6 shift pB.y) ≤ fdot6Round (toFDot6 shift pA.y) - 1
          omega
        · show (-1 : Int) * (fdot6Round (toFDot6 shift pA.y) - 1 -
              fdot6Round (toFDot6 shift pB.y) + 1)
              = bandOf shift pB.y - bandOf shift pA.y
          show (-1 : Int) * (fdot6Round (toFDot6 shift pA.y) - 1 -
              fdot6Round (toFDot6 shift pB.y) + 1)
              = fdot6Round (toFDot6 shift pB.y) - fdot6Round (toFDot6 shift pA.y)
          ring
      · have hle : toFDot6 shift pA.y ≤ toFDot6 shift pB.y := by omega
        have hmin : min (toFDot6 shift pA.y) (toFDot6 shift pB.y) = toFDot6 shift pA.y :=
          min_eq_left hle
        have hmax : max (toFDot6 shift pA.y) (toFDot6 shift pB.y) = toFDot6 shift pB.y :=
          max_eq_right hle
        rw [hmin, hmax] at htb ⊢
        have hmono := fdot6Round_mono hle
        rw [if_neg hgt]
        refine ⟨⟨Or.inl rfl, ?_⟩, ?_⟩
        · show fdot6Round (toFDot6 shift pA.y) ≤ fdot6Round (toFDot6 shift pB.y) - 1
          omega
        · show (1 : Int) * (fdot6Round (toFDot6 shift pB.y) - 1 -
              fdot6Round (toFDot6 shift pA.y) + 1)
              = fdot6Round (toFDot6 shift pB.y) - fdot6Round (toFDot6 shift pA.y)
          ring

/-- Every branch of the basic `combineVertical` conserves the signed
scanline content: `kNo_Combine` leaves the previous edge alone,
`kPartial_Combine` replaces it by a good edge carrying both contents, and
`kTotal_Combine` certifies that the two contents cancel. -/
theorem combineVertical_spec (edge last : SkEdgeRec)
    (hGe : GoodEdge edge) (hGl : GoodEdge last) :
    ((SkBasicEdgeBuilder.combineVertical edge last).1 = Combine.noCombine →
      (SkBasicEdgeBuilder.combineVertical edge last).2 = last) ∧
    ((SkBasicEdgeBuilder.combineVertical edge last).1 = Combine.partCombine →
      GoodEdge (SkBasicEdgeBuilder.combineVertical edge last).2 ∧
      edgeDelta (SkBasicEdgeBuilder.combineVertical edge last).2
        = edgeDelta last + edgeDelta edge) ∧
    ((SkBasicEdgeBuilder.combineVertical edge last).1 = Combine.totalCombine →
      edgeDelta last + edgeDelta edge = 0) := by
  obtain ⟨hwe, hre⟩ := hGe
  obtain ⟨hwl, hrl⟩ := hGl
  unfold SkBasicEdgeBuilder.combineVertical
  by_cases h1 : last.curveCount ≠ 0 ∨ last.dx ≠ 0 ∨ edge.x ≠ last.x
  · rw [if_pos h1]
    exact ⟨fun _ => rfl, fun hc => Combine.noConfusion hc, fun hc => Combine.noConfusion hc⟩
  · rw [if_neg h1]
    by_cases h2 : edge.winding = last.winding
    · rw [if_pos h2]
      by_cases h3 : edge.lastY + 1 = last.firstY
      · rw [if_pos h3]
        refine ⟨fun hc => Combine.noConfusion hc, fun _ => ⟨⟨hwl, ?_⟩, ?_⟩,
                fun hc => Combine.noConfusion hc⟩
        · show edge.firstY ≤ last.lastY
          omega
        · show last.winding * (last.lastY - edge.firstY + 1)
              = edgeDelta last + edgeDelta edge
          simp only [edgeDelta]
          rcases hwl with hw | hw <;> rw [h2, hw] <;> omega
      · rw [if_neg h3]
        by_cases h4 : edge.firstY = last.lastY + 1
        · rw [if_pos h4]
          refine ⟨fun hc => Combine.noConfusion hc, fun _ => ⟨⟨hwl, ?_⟩, ?_⟩,
                  fun hc => Combine.noConfusion hc⟩
          · show last.firstY ≤ edge.lastY
            omega
          · show last.winding * (edge.lastY - last.firstY + 1)
                = edgeDelta last + edgeDelta edge
            simp only [edgeDelta]
            rcases hwl with hw | hw <;> rw [h2, hw] <;> omega
        · rw [if_neg h4]
          exact ⟨fun _ => rfl, fun hc => Combine.noConfusion hc,
                 fun hc => Combine.noConfusion hc⟩
    · rw [if_neg h2]
      by_cases h5 : edge.firstY = last.firstY
      · rw [if_pos h5]
        by_cases h6 : edge.lastY = last.lastY
        · rw [if_pos h6]
          refine ⟨fun hc => Combine.noConfusion hc, fun hc => Combine.noConfusion hc,
                  fun _ => ?_⟩
          simp only [edgeDelta]
          rcases hwe with ha | ha <;> rcases hwl with hb | hb <;> rw [ha, hb] <;> omega
        · rw [if_neg h6]
          by_cases h7 : edge.lastY < last.lastY
          · rw [if_pos h7]
            refine ⟨fun hc => Combine.noConfusion hc, fun _ => ⟨⟨hwl, ?_⟩, ?_⟩,
                    fun hc => Combine.noConfusion hc⟩
            · show edge.lastY + 1 ≤ last.lastY
              omega
            · show last.winding * (last.lastY - (edge.lastY + 1) + 1)
                  = edgeDelta last + edgeDelta edge
              simp only [edgeDelta]
              rcases hwe with ha | ha <;> rcases hwl with hb | hb <;> rw [ha, hb] <;> omega
          · rw [if_neg h7]
            refine ⟨fun hc => Combine.noConfusion hc, fun _ => ⟨⟨hwe, ?_⟩, ?_⟩,
                    fun hc => Combine.noConfusion hc⟩
            · show last.lastY + 1 ≤ edge.lastY
              omega
            · show edge.winding * (edge.lastY - (last.lastY + 1) + 1)
                  = edgeDelta last + edgeDelta edge
              simp only [edgeDelta]
              rcases hwe with ha | ha <;> rcases hwl with hb | hb <;> rw [ha, hb] <;> omega
      · rw [if_neg h5]
        by_cases h8 : edge.lastY = last.lastY
        · rw [if_pos h8]
          by_cases h9 : edge.firstY > last.firstY
          · rw [if_pos h9]
            refine ⟨fun hc => Combine.noConfusion hc, fun _ => ⟨⟨hwl, ?_⟩, ?_⟩,
                    fun hc => Combine.noConfusion hc⟩
            · show last.firstY ≤ edge.firstY - 1
              omega
            · show last.winding * (edge.firstY - 1 - last.firstY + 1)
                  = edgeDelta last + edgeDelta edge
              simp only [edgeDelta]
              rcases hwe with ha | ha <;> rcases hwl with hb | hb <;> rw [ha, hb] <;> omega
          · rw [if_neg h9]
            refine ⟨fun hc => Combine.noConfusion hc, fun _ => ⟨⟨hwe, ?_⟩, ?_⟩,
                    fun hc => Combine.noConfusion hc⟩
            · show edge.firstY ≤ last.firstY - 1
              omega
            · show edge.winding * (last.firstY - 1 - edge.firstY + 1)
                  = edgeDelta last + edgeDelta edge
              simp only [edgeDelta]
              rcases hwe with ha | ha <;> rcases hwl with hb | hb <;> rw [ha, hb] <;> omega
        · rw [if_neg h8]
          exact ⟨fun _ => rfl, fun hc => Combine.noConfusion hc,
                 fun hc => Combine.noConfusion hc⟩

/-- `addLine` conserves the accumulated scanline content and the per-edge
invariant: the list's content grows by exactly the segment's band delta. -/
theorem addLineEdge_spec (shift : Nat) (p0 p1 : PtQ) (edges : List SkEdgeRec)
    (hG : ∀ e ∈ edges, GoodEdge e) :
    (∀ e ∈ addLineEdge shift edges p0 p1, GoodEdge e) ∧
    sumDelta (addLineEdge shift edges p0 p1)
      = sumDelta edges + (bandOf shift p1.y - bandOf shift p0.y) := by
  obtain ⟨hnone, hsome⟩ := setLine_delta shift p0 p1
  cases hsl : SkEdge.setLine shift p0 p1 with
  | none =>
      have h0 := hnone hsl
      simp only [addLineEdge, hsl]
      refine ⟨hG, ?_⟩
      omega
  | some e =>
      obtain ⟨hGe, hde⟩ := hsome e hsl
      cases edges with
      | nil =>
          simp only [addLineEdge, hsl]
          refine ⟨?_, ?_⟩
          · intro e' he'
            rw [List.mem_singleton] at he'
            rw [he']
            exact hGe
          · rw [sumDelta_cons, sumDelta_nil, hde]
            omega
      | cons last rest =>
          have hGl : GoodEdge last := hG last (List.mem_cons_self _ _)
          have hGr : ∀ x ∈ rest, GoodEdge x := fun x hx => hG x (List.mem_cons_of_mem _ hx)
          simp only [addLineEdge, hsl]
          by_cases hv : isVerticalE e = true
          · rw [if_pos hv]
            obtain ⟨hno, hpart, htot⟩ := combineVertical_spec e last hGe hGl
            rcases hcv : SkBasicEdgeBuilder.combineVertical e last with ⟨c, l'⟩
            rw [hcv] at hno hpart htot
            cases c with
            | noCombine =>
                simp only [hcv]
                refine ⟨?_, ?_⟩
                · intro x hx
                  rcases List.mem_cons.mp hx with h | hx2
                  · rw [h]; exact hGe
                  · exact hG x hx2
                · rw [sumDelta_cons, sumDelta_cons, hde]
                  omega
            | partCombine =>
                obtain ⟨hGl2, hdl2⟩ := hpart rfl
                simp only [hcv]
                refine ⟨?_, ?_⟩
                · intro x hx
                  rcases List.mem_cons.mp hx with h | hx2
                  · rw [h]; exact hGl2
                  · exact hGr x hx2
                · rw [sumDelta_cons, sumDelta_cons, hdl2, hde]
                  omega
            | totalCombine =>
                have hz := htot rfl
                simp only [hcv]
                refine ⟨hGr, ?_⟩
                rw [sumDelta_cons]
                rw [hde] at hz
                omega
          · rw [if_neg hv]
            refine ⟨?_, ?_⟩
            · intro x hx
              rcases List.mem_cons.mp hx with h | hx2
              · rw [h]; exact hGe
              · exact hG x hx2
            · rw [sumDelta_cons, sumDelta_cons, hde]
              omega

/-- `addQuad` conserves the accumulated scanline content. -/
theorem addQuadEdge_spec (shift : Nat) (q : QuadQ) (edges : List SkEdgeRec)
    (hG : ∀ e ∈ edges, GoodEdge e) :
    (∀ e ∈ addQuadEdge shift edges q, GoodEdge e) ∧
    sumDelta (addQuadEdge shift edges q)
      = sumDelta edges + (bandOf shift q.p2.y - bandOf shift q.p0.y) := by
  obtain ⟨hnone, hsome⟩ := curveSet_delta shift q.p0 q.p2
  cases hs : SkQuadraticEdge.setQuadratic shift q with
  | none =>
      have h0 := hnone hs
      simp only [addQuadEdge, hs]
      refine ⟨hG, ?_⟩
      omega
  | some e =>
      obtain ⟨hGe, hde⟩ := hsome e hs
      simp only [addQuadEdge, hs]
      refine ⟨?_, ?_⟩
      · intro x hx
        rcases List.mem_cons.mp hx with h | hx2
        · rw [h]; exact hGe
        · exact hG x hx2
      · rw [sumDelta_cons, hde]
        omega

/-- `addCubic` conserves the accumulated scanline content. -/
theorem addCubicEdge_spec (shift : Nat) (c : CubicQ) (edges : List SkEdgeRec)
    (hG : ∀ e ∈ edges, GoodEdge e) :
    (∀ e ∈ addCubicEdge shift edges c, GoodEdge e) ∧
    sumDelta (addCubicEdge shift edges c)
      = sumDelta edges + (bandOf shift c.p3.y - bandOf shift c.p0.y) := by
  obtain ⟨hnone, hsome⟩ := curveSet_delta shift c.p0 c.p3
  cases hs : SkCubicEdge.setCubic shift c with
  | none =>
      have h0 := hnone hs
      simp only [addCubicEdge, hs]
      refine ⟨hG, ?_⟩
      omega
  | some e =>
      obtain ⟨hGe, hde⟩ := hsome e hs
      simp only [addCubicEdge, hs]
      refine ⟨?_, ?_⟩
      · intro x hx
        rcases List.mem_cons.mp hx with h | hx2
        · rw [h]; exact hGe
        · exact hG x hx2
      · rw [sumDelta_cons, hde]
        omega

/-- Appending a chain of quad pieces adds the chain's total band delta. -/
theorem foldl_addQuadEdge_chain (shift : Nat) (qs : List QuadQ) :
    ∀ (a b : PtQ), quadChainB a b qs = true →
    ∀ (edges : List SkEdgeRec), (∀ e ∈ edges, GoodEdge e) →
      (∀ e ∈ qs.foldl (addQuadEdge shift) edges, GoodEdge e) ∧
      sumDelta (qs.foldl (addQuadEdge shift) edges)
        = sumDelta edges + (bandOf shift b.y - bandOf shift a.y) := by
  induction qs with
  | nil =>
      intro a b hch edges hG
      have hab : a = b := of_decide_eq_true hch
      rw [List.foldl_nil, hab]
      exact ⟨hG, by omega⟩
  | cons q rest ih =>
      intro a b hch edges hG
      simp only [quadChainB, Bool.and_eq_true, decide_eq_true_eq] at hch
      obtain ⟨hq0, hrest⟩ := hch
      rw [List.foldl_cons]
      obtain ⟨hG1, hs1⟩ := addQuadEdge_spec shift q edges hG
      obtain ⟨hG2, hs2⟩ := ih q.p2 b hrest _ hG1
      refine ⟨hG2, ?_⟩
      rw [hs2, hs1, hq0]
      omega

/-- Appending a chain of cubic pieces adds the chain's total band delta. -/
theorem foldl_addCubicEdge_chain (shift : Nat) (cs : List CubicQ) :
    ∀ (a b : PtQ), cubicChainB a b cs = true →
    ∀ (edges : List SkEdgeRec), (∀ e ∈ edges, GoodEdge e) →
      (∀ e ∈ cs.foldl (addCubicEdge shift) edges, GoodEdge e) ∧
      sumDelta (cs.foldl (addCubicEdge shift) edges)
        = sumDelta edges + (bandOf shift b.y - bandOf shift a.y) := by
  induction cs with
  | nil =>
      intro a b hch edges hG
      have hab : a = b := of_decide_eq_true hch
      rw [List.foldl_nil, hab]
      exact ⟨hG, by omega⟩
  | cons c rest ih =>
      intro a b hch edges hG
      simp only [cubicChainB, Bool.and_eq_true, decide_eq_true_eq] at hch
      obtain ⟨hc0, hrest⟩ := hch
      rw [List.foldl_cons]
      obtain ⟨hG1, hs1⟩ := addCubicEdge_spec shift c edges hG
      obtain ⟨hG2, hs2⟩ := ih c.p3 b hrest _ hG1
      refine ⟨hG2, ?_⟩
      rw [hs2, hs1, hc0]
      omega

/-- Conic handling: a chain of approximating quads, each chopped at its y
extrema, adds the chain's total band delta. -/
theorem foldl_conicQuads_chain (shift : Nat) (fns : CurveOracles)
    (hwfq : ∀ q, quadChainB q.p0 q.p2 (fns.chopQuadAtYExtrema q) = true)
    (qs : List QuadQ) :
    ∀ (a b : PtQ), quadChainB a b qs = true →
    ∀ (edges : List SkEdgeRec), (∀ e ∈ edges, GoodEdge e) →
      (∀ e ∈ qs.foldl
          (fun es qq => (fns.chopQuadAtYExtrema qq).foldl (addQuadEdge shift) es) edges,
        GoodEdge e) ∧
      sumDelta (qs.foldl
          (fun es qq => (fns.chopQuadAtYExtrema qq).foldl (addQuadEdge shift) es) edges)
        = sumDelta edges + (bandOf shift b.y - bandOf shift a.y) := by
  induction qs with
  | nil =>
      intro a b hch edges hG
      have hab : a = b := of_decide_eq_true hch
      rw [List.foldl_nil, hab]
      exact ⟨hG, by omega⟩
  | cons q rest ih =>
      intro a b hch edges hG
      simp only [quadChainB, Bool.and_eq_true, decide_eq_true_eq] at hch
      obtain ⟨hq0, hrest⟩ := hch
      rw [List.foldl_cons]
      obtain ⟨hG1, hs1⟩ := foldl_addQuadEdge_chain shift _ q.p0 q.p2 (hwfq q) edges hG
      obtain ⟨hG2, hs2⟩ := ih q.p2 b hrest _ hG1
      refine ⟨hG2, ?_⟩
      rw [hs2, hs1, hq0]
      omega

/-- One verb of the unclipped general builder conserves the accumulated
content: it adds exactly the segment's band delta. -/
theorem buildStep_spec (fns : CurveOracles)
    (hwfq : ∀ q, quadChainB q.p0 q.p2 (fns.chopQuadAtYExtrema q) = true)
    (hwfc : ∀ c, cubicChainB c.p0 c.p3 (fns.chopCubicAtYExtrema c) = true)
    (hwfk : ∀ k, quadChainB k.p0 k.p2 (fns.computeQuads k) = true)
    (chopC : Bool) (shift : Nat) (s : Seg) (edges : List SkEdgeRec)
    (hG : ∀ e ∈ edges, GoodEdge e) :
    (∀ e ∈ buildStep fns chopC shift edges s, GoodEdge e) ∧
    sumDelta (buildStep fns chopC shift edges s)
      = sumDelta edges + (bandOf shift s.endPt.y - bandOf shift s.startPt.y) := by
  cases s with
  | line p0 p1 => exact addLineEdge_spec shift p0 p1 edges hG
  | quad q => exact foldl_addQuadEdge_chain shift _ q.p0 q.p2 (hwfq q) edges hG
  | conic k => exact foldl_conicQuads_chain shift fns hwfq _ k.p0 k.p2 (hwfk k) edges hG
  | cubic c =>
      cases chopC with
      | true => exact foldl_addCubicEdge_chain shift _ c.p0 c.p3 (hwfc c) edges hG
      | false => exact addCubicEdge_spec shift c edges hG

/-- Folding the per-verb dispatch over a segment chain adds the chain's
total band delta. -/
theorem foldl_buildStep_chain (fns : CurveOracles)
    (hwfq : ∀ q, quadChainB q.p0 q.p2 (fns.chopQuadAtYExtrema q) = true)
    (hwfc : ∀ c, cubicChainB c.p0 c.p3 (fns.chopCubicAtYExtrema c) = true)
    (hwfk : ∀ k, quadChainB k.p0 k.p2 (fns.computeQuads k) = true)
    (chopC : Bool) (shift : Nat) (c : List Seg) :
    ∀ (a b : PtQ), segChainB a b c = true →
    ∀ (edges : List SkEdgeRec), (∀ e ∈ edges, GoodEdge e) →
      (∀ e ∈ c.foldl (buildStep fns chopC shift) edges, GoodEdge e) ∧
      sumDelta (c.foldl (buildStep fns chopC shift) edges)
        = sumDelta edges + (bandOf shift b.y - bandOf shift a.y) := by
  induction c with
  | nil =>
      intro a b hch edges hG
      have hab : a = b := of_decide_eq_true hch
      rw [List.foldl_nil, hab]
      exact ⟨hG, by omega⟩
  | cons s rest ih =>
      intro a b hch edges hG
      simp only [segChainB, Bool.and_eq_true, decide_eq_true_eq] at hch
      obtain ⟨hs0, hrest⟩ := hch
      rw [List.foldl_cons]
      obtain ⟨hG1, hs1⟩ := buildStep_spec fns hwfq hwfc hwfk chopC shift s edges hG
      obtain ⟨hG2, hs2⟩ := ih s.endPt b hrest _ hG1
      refine ⟨hG2, ?_⟩
      rw [hs2, hs1, hs0]
      omega

/-- A closed contour contributes nothing to the accumulated content of the
general builder. -/
theorem buildStep_closedContour (fns : CurveOracles)
    (hwfq : ∀ q, quadChainB q.p0 q.p2 (fns.chopQuadAtYExtrema q) = true)
    (hwfc : ∀ c, cubicChainB c.p0 c.p3 (fns.chopCubicAtYExtrema c) = true)
    (hwfk : ∀ k, quadChainB k.p0 k.p2 (fns.computeQuads k) = true)
    (chopC : Bool) (shift : Nat) (c : List Seg) (hc : ClosedContourB c = true)
    (edges : List SkEdgeRec) (hG : ∀ e ∈ edges, GoodEdge e) :
    (∀ e ∈ c.foldl (buildStep fns chopC shift) edges, GoodEdge e) ∧
    sumDelta (c.foldl (buildStep fns chopC shift) edges) = sumDelta edges := by
  cases c with
  | nil => exact Bool.noConfusion hc
  | cons s rest =>
      have hch : segChainB s.startPt s.startPt (s :: rest) = true := hc
      obtain ⟨h1, h2⟩ := foldl_buildStep_chain fns hwfq hwfc hwfk chopC shift (s :: rest)
        s.startPt s.startPt hch edges hG
      refine ⟨h1, ?_⟩
      rw [h2]
      omega

/-- A path of closed contours leaves the general builder's accumulated
content unchanged. -/
theorem build_fold_conservation (fns : CurveOracles)
    (hwfq : ∀ q, quadChainB q.p0 q.p2 (fns.chopQuadAtYExtrema q) = true)
    (hwfc : ∀ c, cubicChainB c.p0 c.p3 (fns.chopCubicAtYExtrema c) = true)
    (hwfk : ∀ k, quadChainB k.p0 k.p2 (fns.computeQuads k) = true)
    (chopC : Bool) (shift : Nat) (cs : List (List Seg)) :
    (∀ c ∈ cs, ClosedContourB c = true) →
    ∀ (edges : List SkEdgeRec), (∀ e ∈ edges, GoodEdge e) →
      (∀ e ∈ cs.foldl (fun es c => c.foldl (buildStep fns chopC shift) es) edges, GoodEdge e) ∧
      sumDelta (cs.foldl (fun es c => c.foldl (buildStep fns chopC shift) es) edges)
        = sumDelta edges := by
  induction cs with
  | nil => exact fun _ edges hG => ⟨hG, rfl⟩
  | cons c rest ih =>
      intro hcl edges hG
      rw [List.foldl_cons]
      obtain ⟨hG1, hs1⟩ := buildStep_closedContour fns hwfq hwfc hwfk chopC shift c
        (hcl c (List.mem_cons_self _ _)) edges hG
      obtain ⟨hG2, hs2⟩ := ih (fun x hx => hcl x (List.mem_cons_of_mem _ hx)) _ hG1
      exact ⟨hG2, by rw [hs2, hs1]⟩

/-- Folding the polyline per-verb work without a clip over a chain of line
segments adds the chain's total band delta. -/
theorem foldl_addPoly_chain (shift : Nat) (c : List Seg) :
    ∀ (a b : PtQ), segChainB a b c = true → c.all Seg.isLine = true →
    ∀ (edges : List SkEdgeRec), (∀ e ∈ edges, GoodEdge e) →
      (∀ e ∈ c.foldl (addPolyLineSegs shift none) edges, GoodEdge e) ∧
      sumDelta (c.foldl (addPolyLineSegs shift none) edges)
        = sumDelta edges + (bandOf shift b.y - bandOf shift a.y) := by
  induction c with
  | nil =>
      intro a b hch _ edges hG
      have hab : a = b := of_decide_eq_true hch
      rw [List.foldl_nil, hab]
      exact ⟨hG, by omega⟩
  | cons s rest ih =>
      intro a b hch hall edges hG
      simp only [segChainB, Bool.and_eq_true, decide_eq_true_eq] at hch
      obtain ⟨hs0, hrest⟩ := hch
      simp only [List.all_cons, Bool.and_eq_true] at hall
      obtain ⟨hline, hrall⟩ := hall
      rw [List.foldl_cons]
      cases s with
      | line p0 p1 =>
          simp only [Seg.startPt] at hs0
          obtain ⟨hG1, hs1⟩ := addLineEdge_spec shift p0 p1 edges hG
          obtain ⟨hG2, hs2⟩ := ih (Seg.line p0 p1).endPt b hrest hrall _ hG1
          simp only [Seg.endPt] at hs2
          have hred : addPolyLineSegs shift none edges (Seg.line p0 p1)
              = addLineEdge shift edges p0 p1 := rfl
          refine ⟨by rw [hred]; exact hG2, ?_⟩
          rw [hred, hs2, hs1, hs0]
          omega
      | quad q => exact Bool.noConfusion hline
      | conic k => exact Bool.noConfusion hline
      | cubic cq => exact Bool.noConfusion hline

/-- A closed all-line contour contributes nothing to the polyline builder's
accumulated content. -/
theorem addPoly_closedContour (shift : Nat) (c : List Seg)
    (hc : ClosedContourB c = true) (hall : c.all Seg.isLine = true)
    (edges : List SkEdgeRec) (hG : ∀ e ∈ edges, GoodEdge e) :
    (∀ e ∈ c.foldl (addPolyLineSegs shift none) edges, GoodEdge e) ∧
    sumDelta (c.foldl (addPolyLineSegs shift none) edges) = sumDelta edges := by
  cases c with
  | nil => exact Bool.noConfusion hc
  | cons s rest =>
      have hch : segChainB s.startPt s.startPt (s :: rest) = true := hc
      obtain ⟨h1, h2⟩ := foldl_addPoly_chain shift (s :: rest)
        s.startPt s.startPt hch hall edges hG
      refine ⟨h1, ?_⟩
      rw [h2]
      omega

/-- An all-line path of closed contours leaves the polyline builder's
accumulated content unchanged. -/
theorem buildPoly_fold_conservation (shift : Nat) (cs : List (List Seg)) :
    (∀ c ∈ cs, ClosedContourB c = true) → (∀ c ∈ cs, c.all Seg.isLine = true) →
    ∀ (edges : List SkEdgeRec), (∀ e ∈ edges, GoodEdge e) →
      (∀ e ∈ cs.foldl (fun es c => c.foldl (addPolyLineSegs shift none) es) edges, GoodEdge e) ∧
      sumDelta (cs.foldl (fun es c => c.foldl (addPolyLineSegs shift none) es) edges)
        = sumDelta edges := by
  induction cs with
  | nil => exact fun _ _ edges hG => ⟨hG, rfl⟩
  | cons c rest ih =>
      intro hcl hlin edges hG
      rw [List.foldl_cons]
      obtain ⟨hG1, hs1⟩ := addPoly_closedContour shift c
        (hcl c (List.mem_cons_self _ _)) (hlin c (List.mem_cons_self _ _)) edges hG
      obtain ⟨hG2, hs2⟩ := ih (fun x hx => hcl x (List.mem_cons_of_mem _ hx))
        (fun x hx => hlin x (List.mem_cons_of_mem _ hx)) _ hG1
      exact ⟨hG2, by rw [hs2, hs1]⟩

/-- A good edge has nonzero signed content. -/
theorem goodEdge_delta_ne_zero (e : SkEdgeRec) (h : GoodEdge e) : edgeDelta e ≠ 0 := by
  obtain ⟨hw, hr⟩ := h
  simp only [edgeDelta]
  rcases hw with h1 | h1 <;> rw [h1] <;> omega

/-- A good edge list of zero total content cannot be a singleton. -/
theorem goodList_sum_zero_not_singleton (es : List SkEdgeRec)
    (hG : ∀ e ∈ es, GoodEdge e) (hs : sumDelta es = 0) : es.length ≠ 1 := by
  intro hlen
  obtain ⟨e, he⟩ := List.length_eq_one.mp hlen
  rw [he] at hs hG
  rw [sumDelta_cons, sumDelta_nil] at hs
  exact goodEdge_delta_ne_zero e (hG e (List.mem_singleton_self e)) (by omega)

/-- C1 (amended): for every path of closed contours — convex or not — built
WITHOUT a clip, `buildEdges` (with well-formed external choppers) never
returns an edge count of exactly 1: a closed path's total signed scanline
content is 0, every append and every `combineVertical` fusion conserves it,
and a single surviving edge would carry nonzero content. -/
theorem buildEdges_no_clip_count_ne_one (fns : CurveOracles) (co : ClipOracle)
    (chopC : Bool) (shift : Nat) (cs : List (List Seg))
    (hwf : CurveOraclesWF fns)
    (hcl : ∀ c ∈ cs, ClosedContourB c = true) :
    SkEdgeBuilder.buildEdges fns co chopC shift cs none ≠ 1 := by
  obtain ⟨hwfq, hwfc, hwfk⟩ := hwf
  intro h1
  cases hl : pathIsLinesOnly cs with
  | true =>
      have hlin : ∀ c ∈ cs, c.all Seg.isLine = true := by
        simp only [pathIsLinesOnly, List.all_eq_true] at hl
        intro c hc
        rw [List.all_eq_true]
        exact hl c hc
      obtain ⟨hG, hsum⟩ := buildPoly_fold_conservation shift cs hcl hlin []
        (by intro e he; cases he)
      have he : SkEdgeBuilder.buildEdges fns co chopC shift cs none
          = (cs.foldl (fun es c => c.foldl (addPolyLineSegs shift none) es) []).length := by
        simp only [SkEdgeBuilder.buildEdges, hl, if_true, SkEdgeBuilder.buildPoly]
      rw [he] at h1
      exact goodList_sum_zero_not_singleton _ hG (hsum.trans rfl) h1
  | false =>
      obtain ⟨hG, hsum⟩ := build_fold_conservation fns hwfq hwfc hwfk chopC shift cs hcl []
        (by intro e he; cases he)
      have he : SkEdgeBuilder.buildEdges fns co chopC shift cs none
          = (SkEdgeBuilder.build fns chopC shift cs).length := by
        simp only [SkEdgeBuilder.buildEdges, hl, Bool.false_eq_true, if_false]
      rw [he] at h1
      exact goodList_sum_zero_not_singleton _ hG (hsum.trans rfl) h1

/-- C1 witness: the triangle path is closed, and the theorem applies at the
identity choppers to give a count that is not 1. -/
theorem buildEdges_no_clip_count_ne_one_witness :
    (triPath.all ClosedContourB = true) ∧
    SkEdgeBuilder.buildEdges idCurveOracles emptyClipOracle true 0 triPath none ≠ 1 := by
  refine ⟨by decide, ?_⟩
  exact buildEdges_no_clip_count_ne_one idCurveOracles emptyClipOracle true 0 triPath
    ⟨fun q => by simp [idCurveOracles, quadChainB],
     fun c => by simp [idCurveOracles, cubicChainB],
     fun k => by simp [idCurveOracles, quadChainB]⟩
    (by intro c hc; simp only [triPath, List.mem_singleton] at hc; rw [hc]; decide)

unseal Rat.add Rat.sub Rat.mul in
/-- C1 counterexample: a non-convex closed all-line path, built with cubic
chopping enabled against the clip `[0,8] × [0,8]`, returns an edge count of
exactly 1 — the non-convexity enables `canCullToTheRight`, the cull drops
every boundary segment at `x ≥ 20`, the horizontal segments are rejected,
and the single left edge remains. -/
theorem buildEdges_nonconvex_clipped_count_one :
    SkPath.isConvex cexPath = false ∧
    cexPath.all ClosedContourB = true ∧
    SkEdgeBuilder.buildEdges idCurveOracles emptyClipOracle true 0 cexPath (some cexClip) = 1 := by
  decide
